import Mathlib

set_option autoImplicit false
set_option maxHeartbeats 1000000

/-!
Verification development for the family-tree layout and kinship engine
(assets/js/tree.js).  The JavaScript source is embedded shallowly:
coordinates become rationals, JS Maps become association lists or update
functions, in-place mutation becomes explicit state passing, and the
unbounded BFS loops become fuel-indexed recursions whose fuel adequacy is
proved where a claim needs it.
-/

namespace FamilyTree

/-- A laid-out node of the tree view: person identifier plus the mutable
coordinates that the layout pipeline rewrites in place. -/
structure LNode where
  id : String
  x : ℚ
  y : ℚ
deriving DecidableEq

instance : Inhabited LNode := ⟨⟨"", 0, 0⟩⟩

/-- JavaScript Math.round: round half toward positive infinity. -/
def jsRound (q : ℚ) : Int := ⌊q + (1 : ℚ) / 2⌋

/-- Mean of a list of rationals (d3.mean on a nonempty list; 0 on empty). -/
def qMean (l : List ℚ) : ℚ := l.sum / (l.length : ℚ)

/-- Unit kinds used by the per-row collision resolver: a lone node, a
spouse couple, or a multi-spouse cluster. -/
inductive UKind where
  | single
  | couple
  | cluster
deriving DecidableEq

/-- A collision-resolution unit: the kind, the member nodes ordered left to
right, and (for clusters) the index of the central person inside nodes,
standing for the JS reference u.center. -/
structure RUnit where
  kind : UKind
  nodes : List LNode
  centerIdx : Nat
deriving DecidableEq

/-- unitWidth from tree.js: spouse-gap times (member count - 1) for
clusters, the spouse gap for couples, zero for singles. -/
def unitWidth (coupleGap : ℚ) (u : RUnit) : ℚ :=
  match u.kind with
  | .cluster => coupleGap * ((u.nodes.length - 1 : ℕ) : ℚ)
  | .couple => coupleGap
  | .single => 0

/-- unitAnchor from tree.js: for a cluster, the central person's hub-derived
anchor (falling back to its current x); otherwise the mean of the members'
anchors, falling back to the members' mean x. -/
def unitAnchor (anchors : String → Option ℚ) (u : RUnit) : ℚ :=
  match u.kind with
  | .cluster =>
    let c := u.nodes.getD u.centerIdx default
    (anchors c.id).getD c.x
  | _ =>
    let avs := u.nodes.filterMap (fun n => anchors n.id)
    if avs.length ≠ 0 then qMean avs
    else qMean (u.nodes.map (fun n => n.x))

/-- Overwrite the x coordinate of the node at a given index, as the JS
assignments u.nodes[i].x = v do. -/
def setXAt : List LNode → Nat → ℚ → List LNode
  | [], _, _ => []
  | n :: t, 0, v => { n with x := v } :: t
  | n :: t, Nat.succ i, v => n :: setXAt t i v

/-- One step of the forward (left-to-right) sweep: clamp the unit's target
center against the cursor plus the minimum gap, write member positions, and
return the new cursor (the unit's right edge). -/
def fwStep (minGap coupleGap : ℚ) (anchors : String → Option ℚ)
    (cursor : Option ℚ) (u : RUnit) : RUnit × ℚ :=
  let w := unitWidth coupleGap u
  let c0 := unitAnchor anchors u
  let center :=
    match cursor with
    | none => c0
    | some cur => if c0 < cur + minGap + w / 2 then cur + minGap + w / 2 else c0
  match u.kind with
  | .single => ({ u with nodes := setXAt u.nodes 0 center }, center)
  | .couple =>
    let leftX := center - w / 2
    let rightX := center + w / 2
    ({ u with nodes := setXAt (setXAt u.nodes 0 leftX) 1 rightX }, rightX)
  | .cluster =>
    let leftX := center - w / 2
    let ns := u.nodes.enum.map
      (fun p => { p.2 with x := leftX + (p.1 : ℚ) * coupleGap })
    ({ u with nodes := ns }, leftX + w)

/-- Forward sweep over the anchor-sorted units, threading the cursor
(JS starts it at negative infinity, here the none case). -/
def forwardPass (minGap coupleGap : ℚ) (anchors : String → Option ℚ) :
    Option ℚ → List RUnit → List RUnit
  | _, [] => []
  | cursor, u :: rest =>
    let s := fwStep minGap coupleGap anchors cursor u
    s.1 :: forwardPass minGap coupleGap anchors (some s.2) rest

/-- Current x of the first member of a unit (the unit's left edge as the
code computes it). -/
def headX (u : RUnit) : ℚ :=
  match u.nodes with
  | [] => 0
  | n :: _ => n.x

/-- Current x of the last member of a unit (the unit's right edge as the
code computes it). -/
def lastX (u : RUnit) : ℚ :=
  ((u.nodes.getLast?).getD default).x

/-- One step of the backward tightening sweep: clamp the target center
against the cursor minus the minimum gap, lower every member to the minimum
of its current x and its target, and return the new cursor exactly as the
code does (new left member x for singles and couples, the target left edge
for clusters). -/
def bwStep (minGap coupleGap : ℚ) (anchors : String → Option ℚ)
    (cursor : Option ℚ) (u : RUnit) : RUnit × ℚ :=
  let w := unitWidth coupleGap u
  let c0 := unitAnchor anchors u
  let center :=
    match cursor with
    | none => c0
    | some cur => if c0 > cur - (minGap + w / 2) then cur - (minGap + w / 2) else c0
  match u.kind with
  | .single =>
    let nx := min (headX u) center
    ({ u with nodes := setXAt u.nodes 0 nx }, nx)
  | .couple =>
    let leftX := center - w / 2
    let rightX := center + w / 2
    let x0 := min (headX u) leftX
    let x1 := min (((u.nodes.getD 1 default)).x) rightX
    ({ u with nodes := setXAt (setXAt u.nodes 0 x0) 1 x1 }, x0)
  | .cluster =>
    let leftX := center - w / 2
    let ns := u.nodes.enum.map
      (fun p => { p.2 with x := min p.2.x (leftX + (p.1 : ℚ) * coupleGap) })
    ({ u with nodes := ns }, leftX)

/-- Backward sweep helper: consumes the unit list from the right (the head
of the argument is the rightmost remaining unit) and rebuilds the row in
original order. -/
def backwardGo (minGap coupleGap : ℚ) (anchors : String → Option ℚ) :
    Option ℚ → List RUnit → List RUnit
  | _, [] => []
  | cursor, u :: rest =>
    let s := bwStep minGap coupleGap anchors cursor u
    backwardGo minGap coupleGap anchors (some s.2) rest ++ [s.1]

/-- Backward (right-to-left) tightening sweep from tree.js, with the cursor
starting at positive infinity (the none case). -/
def backwardPass (minGap coupleGap : ℚ) (anchors : String → Option ℚ)
    (us : List RUnit) : List RUnit :=
  backwardGo minGap coupleGap anchors none us.reverse

/-- A relationship record: either a spouse pair or a parent-child record
carrying a parents array and a legacy single parentId field. -/
inductive Rel where
  | spouse (personAId personBId : String)
  | parentChild (childId : String) (parents : List String) (parentId : Option String)
deriving DecidableEq

/-- The spouse relationships in record order (relationships.filter on type
spouse). -/
def rowSpousePairs (rels : List Rel) : List (String × String) :=
  rels.filterMap (fun r => match r with
    | .spouse a b => some (a, b)
    | _ => none)

/-- The per-row spouse Map of tree.js: for each spouse record whose two ids
are both on the row, record each endpoint's partner node (later records
overwrite earlier ones, as JS Map.set does). -/
def mkSpouseMap (rowNodes : List LNode) (prs : List (String × String)) :
    String → Option LNode :=
  prs.foldl (fun m pr =>
    match rowNodes.find? (fun n => n.id = pr.1), rowNodes.find? (fun n => n.id = pr.2) with
    | some aN, some bN =>
      fun k => if k = pr.2 then some aN else if k = pr.1 then some bN else m k
    | _, _ => m) (fun _ => none)

/-- Append a value to the list stored under a key, when the key is present. -/
def pushVal (m : String → Option (List LNode)) (k : String) (v : LNode) :
    String → Option (List LNode) :=
  fun k2 => if k2 = k then (m k).map (fun l => l ++ [v]) else m k2

/-- The per-row spouse adjacency of tree.js (spousesById): every row id maps
to the list of its same-row spouse nodes in record order. -/
def mkSpousesById (sorted : List LNode) (prs : List (String × String)) :
    String → Option (List LNode) :=
  prs.foldl (fun m pr =>
    if (m pr.1).isSome ∧ (m pr.2).isSome then
      match sorted.find? (fun n => n.id = pr.1), sorted.find? (fun n => n.id = pr.2) with
      | some aN, some bN => pushVal (pushVal m pr.1 bN) pr.2 aN
      | _, _ => m
    else m)
    (fun k => if sorted.any (fun n => n.id = k) then some [] else none)

/-- The multi-spouse cluster detection loop: walk the x-sorted row, and for
every unseen node with at least two same-row spouses build a cluster unit
keeping the spouses adjacent around the center person. -/
def clusterPass (anchors : String → Option ℚ)
    (spousesById : String → Option (List LNode)) :
    List LNode → List String → List RUnit → List String × List RUnit
  | [], seen, units => (seen, units)
  | n :: rest, seen, units =>
    if seen.contains n.id then clusterPass anchors spousesById rest seen units
    else
      let partners := ((spousesById n.id).getD []).filter
        (fun p => jsRound p.y = jsRound n.y)
      if 2 ≤ partners.length then
        let partnerSorted := List.insertionSort (fun a b => a.x ≤ b.x)
          (partners.filter (fun p => ¬ seen.contains p.id))
        let ns :=
          if partnerSorted.length = 2 then
            let p0 := partnerSorted.getD 0 default
            let p1 := partnerSorted.getD 1 default
            let l := if p0.x ≤ p1.x then p0 else p1
            let r := if p0.x ≤ p1.x then p1 else p0
            (([l, n, r] : List LNode), 1)
          else
            let centerAnchor := (anchors n.id).getD n.x
            let idx := (partnerSorted.takeWhile
              (fun q => ¬ centerAnchor < ((anchors q.id).getD q.x))).length
            (partnerSorted.take idx ++ n :: partnerSorted.drop idx, idx)
        clusterPass anchors spousesById rest (seen ++ ns.1.map (fun p => p.id))
          (units ++ [⟨.cluster, ns.1, ns.2⟩])
      else clusterPass anchors spousesById rest seen units

/-- The second unit-building loop: remaining nodes become couple units (a
mutual same-row spouse pair, ordered left/right) or single units. -/
def coupleSinglePass (spouseMap : String → Option LNode) :
    List LNode → List String → List RUnit → List RUnit
  | [], _, units => units
  | n :: rest, seen, units =>
    if seen.contains n.id then coupleSinglePass spouseMap rest seen units
    else
      match spouseMap n.id with
      | some p =>
        if jsRound p.y = jsRound n.y ∧ ¬ seen.contains p.id then
          let l := if n.x ≤ p.x then n else p
          let r := if n.x ≤ p.x then p else n
          coupleSinglePass spouseMap rest (seen ++ [n.id, p.id])
            (units ++ [⟨.couple, [l, r], 0⟩])
        else
          coupleSinglePass spouseMap rest (seen ++ [n.id])
            (units ++ [⟨.single, [n], 0⟩])
      | none =>
        coupleSinglePass spouseMap rest (seen ++ [n.id])
          (units ++ [⟨.single, [n], 0⟩])

/-- Mean current x of a unit's members. -/
def unitMeanX (u : RUnit) : ℚ :=
  (u.nodes.map (fun n => n.x)).sum / (u.nodes.length : ℚ)

/-- Unit construction for one row, exactly as tree.js does before the
sweeps: group the x-sorted row nodes into cluster, couple and single units,
order them by mean x, then order them by anchor. -/
def buildUnits (anchors : String → Option ℚ) (rels : List Rel)
    (rowNodes : List LNode) : List RUnit :=
  let prs := rowSpousePairs rels
  let spouseMap := mkSpouseMap rowNodes prs
  let sorted := List.insertionSort (fun a b => a.x ≤ b.x) rowNodes
  let spousesById := mkSpousesById sorted prs
  let s1 := clusterPass anchors spousesById sorted [] []
  let units := coupleSinglePass spouseMap sorted s1.1 s1.2
  let units1 := List.insertionSort (fun u v => unitMeanX u ≤ unitMeanX v) units
  List.insertionSort
    (fun u v => unitAnchor anchors u ≤ unitAnchor anchors v) units1

/-- The full per-row collision resolution: build units and run the forward
and backward sweeps. -/
def resolveRowUnits (minGap coupleGap : ℚ) (anchors : String → Option ℚ)
    (rels : List Rel) (rowNodes : List LNode) : List RUnit :=
  backwardPass minGap coupleGap anchors
    (forwardPass minGap coupleGap anchors none (buildUnits anchors rels rowNodes))

/-- The identity-and-vertical projection of a node: everything the collision
resolver is not allowed to change. -/
def shadow (n : LNode) : String × ℚ := (n.id, n.y)

/-- The x coordinates a unit's members take when the unit of a given width
is placed with its center at ctr: successive member slots coupleGap apart
starting at the left edge. -/
def placedXs (cg w ctr : ℚ) (len : Nat) : List ℚ :=
  (List.range len).map (fun i : ℕ => ctr - w / 2 + (i : ℚ) * cg)

/-- Structural well-formedness of a unit as buildUnits creates them:
singles hold one node, couples two, clusters at least one. -/
def UnitWF (u : RUnit) : Prop :=
  u.nodes ≠ [] ∧ (u.kind = .single → u.nodes.length = 1) ∧
    (u.kind = .couple → u.nodes.length = 2)

/-- A unit whose member x coordinates are exactly the placement slots for
center ctr. -/
def Placed (cg : ℚ) (u : RUnit) (ctr : ℚ) : Prop :=
  u.nodes.map (fun n => n.x) = placedXs cg (unitWidth cg u) ctr u.nodes.length

theorem setXAt_shadow (l : List LNode) (i : Nat) (v : ℚ) :
    (setXAt l i v).map shadow = l.map shadow := by
  induction l generalizing i with
  | nil => simp [setXAt]
  | cons n t ih =>
    cases i with
    | zero => simp [setXAt, shadow]
    | succ j => simp [setXAt, ih]

theorem setXAt_kindless_length (l : List LNode) (i : Nat) (v : ℚ) :
    (setXAt l i v).length = l.length := by
  induction l generalizing i with
  | nil => simp [setXAt]
  | cons n t ih =>
    cases i with
    | zero => simp [setXAt]
    | succ j => simp [setXAt, ih]

theorem enumFrom_setx_map_x (f : ℕ → ℚ) (l : List LNode) :
    ∀ k, ((l.enumFrom k).map (fun p => { p.2 with x := f p.1 })).map
        (fun n => n.x) = (List.range' k l.length).map f := by
  induction l with
  | nil => intro k; simp
  | cons n t ih =>
    intro k
    simp [List.range'_succ, ih]

theorem enumFrom_setx_map_shadow (f : ℕ → ℚ) (l : List LNode) :
    ∀ k, ((l.enumFrom k).map (fun p => { p.2 with x := f p.1 })).map shadow
      = l.map shadow := by
  induction l with
  | nil => intro k; simp
  | cons n t ih =>
    intro k
    simp [shadow, ih]

theorem enum_setx_map_x (f : ℕ → ℚ) (l : List LNode) :
    ((l.enum).map (fun p => { p.2 with x := f p.1 })).map (fun n => n.x)
      = (List.range l.length).map f := by
  rw [List.enum, enumFrom_setx_map_x, List.range_eq_range']

theorem unitWidth_congr (cg : ℚ) (u v : RUnit) (hk : v.kind = u.kind)
    (hl : v.nodes.length = u.nodes.length) :
    unitWidth cg v = unitWidth cg u := by
  unfold unitWidth
  rw [hk, hl]

theorem enumFrom_regen_shadow (f : ℕ → LNode → ℚ) (l : List LNode) :
    ∀ k, ((l.enumFrom k).map (fun p => { p.2 with x := f p.1 p.2 })).map shadow
      = l.map shadow := by
  induction l with
  | nil => intro k; simp
  | cons n t ih =>
    intro k
    simp [shadow, ih]

theorem enumFrom_minx (l : List LNode) (f g : ℕ → ℚ) :
    ∀ k, l.map (fun n => n.x) = (List.range' k l.length).map g →
      ((l.enumFrom k).map
          (fun p => { p.2 with x := min p.2.x (f p.1) })).map (fun n => n.x)
        = (List.range' k l.length).map (fun i => min (g i) (f i)) := by
  induction l with
  | nil => intro k _; simp
  | cons n t ih =>
    intro k h
    simp only [List.length_cons, List.range'_succ] at h ⊢
    simp only [List.map_cons, List.cons.injEq, List.enumFrom] at h ⊢
    exact ⟨by rw [h.1], ih (k + 1) h.2⟩

/-- The clamped center used by one forward step. -/
def fwCenter (mg cg : ℚ) (anch : String → Option ℚ) (cursor : Option ℚ)
    (u : RUnit) : ℚ :=
  match cursor with
  | none => unitAnchor anch u
  | some cur =>
    if unitAnchor anch u < cur + mg + unitWidth cg u / 2 then
      cur + mg + unitWidth cg u / 2
    else unitAnchor anch u

theorem fwCenter_lower (mg cg : ℚ) (anch : String → Option ℚ) (cur : ℚ)
    (u : RUnit) :
    cur + mg + unitWidth cg u / 2 ≤ fwCenter mg cg anch (some cur) u := by
  simp only [fwCenter]
  split
  · exact le_refl _
  · exact le_of_not_lt (by assumption)

/-- The clamped center used by one backward step. -/
def bwCenter (mg cg : ℚ) (anch : String → Option ℚ) (cursor : Option ℚ)
    (u : RUnit) : ℚ :=
  match cursor with
  | none => unitAnchor anch u
  | some cur =>
    if unitAnchor anch u > cur - (mg + unitWidth cg u / 2) then
      cur - (mg + unitWidth cg u / 2)
    else unitAnchor anch u

theorem bwCenter_upper (mg cg : ℚ) (anch : String → Option ℚ) (cur : ℚ)
    (u : RUnit) :
    bwCenter mg cg anch (some cur) u ≤ cur - (mg + unitWidth cg u / 2) := by
  simp only [bwCenter]
  split
  · exact le_refl _
  · exact le_of_not_lt (by assumption)

theorem fwStep_single (mg cg : ℚ) (anch : String → Option ℚ)
    (cursor : Option ℚ) (u : RUnit) (h : u.kind = .single) :
    fwStep mg cg anch cursor u =
      ({ u with nodes := setXAt u.nodes 0 (fwCenter mg cg anch cursor u) },
        fwCenter mg cg anch cursor u) := by
  obtain ⟨k, ns, ci⟩ := u
  simp only at h
  subst h
  rfl

theorem fwStep_couple (mg cg : ℚ) (anch : String → Option ℚ)
    (cursor : Option ℚ) (u : RUnit) (h : u.kind = .couple) :
    fwStep mg cg anch cursor u =
      ({ u with nodes := (setXAt (setXAt u.nodes 0 (fwCenter mg cg anch cursor u - unitWidth cg u / 2)) 1 (fwCenter mg cg anch cursor u + unitWidth cg u / 2)) },
        fwCenter mg cg anch cursor u + unitWidth cg u / 2) := by
  obtain ⟨k, ns, ci⟩ := u
  simp only at h
  subst h
  rfl

theorem fwStep_cluster (mg cg : ℚ) (anch : String → Option ℚ)
    (cursor : Option ℚ) (u : RUnit) (h : u.kind = .cluster) :
    fwStep mg cg anch cursor u =
      ({ u with nodes := u.nodes.enum.map (fun p => { p.2 with x := ((fwCenter mg cg anch cursor u - unitWidth cg u / 2) + (p.1 : ℚ) * cg) }) },
        (fwCenter mg cg anch cursor u - unitWidth cg u / 2) + unitWidth cg u) := by
  obtain ⟨k, ns, ci⟩ := u
  simp only at h
  subst h
  rfl

theorem bwStep_single (mg cg : ℚ) (anch : String → Option ℚ)
    (cursor : Option ℚ) (u : RUnit) (h : u.kind = .single) :
    bwStep mg cg anch cursor u =
      ({ u with nodes := (setXAt u.nodes 0 (min (headX u) (bwCenter mg cg anch cursor u))) },
        min (headX u) (bwCenter mg cg anch cursor u)) := by
  obtain ⟨k, ns, ci⟩ := u
  simp only at h
  subst h
  rfl

theorem bwStep_couple (mg cg : ℚ) (anch : String → Option ℚ)
    (cursor : Option ℚ) (u : RUnit) (h : u.kind = .couple) :
    bwStep mg cg anch cursor u =
      ({ u with nodes := (setXAt (setXAt u.nodes 0 (min (headX u) (bwCenter mg cg anch cursor u - unitWidth cg u / 2))) 1 (min ((u.nodes.getD 1 default).x) (bwCenter mg cg anch cursor u + unitWidth cg u / 2))) },
        min (headX u) (bwCenter mg cg anch cursor u - unitWidth cg u / 2)) := by
  obtain ⟨k, ns, ci⟩ := u
  simp only at h
  subst h
  rfl

theorem placedXs_one (cg w ctr : ℚ) : placedXs cg w ctr 1 = [ctr - w / 2] := by
  simp [placedXs, List.range_succ]

theorem placedXs_two (cg w ctr : ℚ) :
    placedXs cg w ctr 2 = [ctr - w / 2, ctr - w / 2 + cg] := by
  simp [placedXs, List.range_succ]

theorem bwStep_cluster (mg cg : ℚ) (anch : String → Option ℚ)
    (cursor : Option ℚ) (u : RUnit) (h : u.kind = .cluster) :
    bwStep mg cg anch cursor u =
      ({ u with nodes := u.nodes.enum.map (fun p => { p.2 with x := (min p.2.x ((bwCenter mg cg anch cursor u - unitWidth cg u / 2) + (p.1 : ℚ) * cg)) }) },
        bwCenter mg cg anch cursor u - unitWidth cg u / 2) := by
  obtain ⟨k, ns, ci⟩ := u
  simp only at h
  subst h
  rfl


theorem enumFrom_affine_x (L c : ℚ) (l : List LNode) :
    ∀ k, ((l.enumFrom k).map
        (fun p => { p.2 with x := L + (p.1 : ℚ) * c })).map (fun n => n.x)
      = (List.range' k l.length).map (fun i : ℕ => L + (i : ℚ) * c) := by
  induction l with
  | nil => intro k; simp
  | cons n t ih =>
    intro k
    simp only [List.length_cons, List.range'_succ, List.enumFrom,
      List.map_cons, List.cons.injEq]
    exact ⟨trivial, ih (k + 1)⟩

theorem enumFrom_minaffine_x (L c : ℚ) (g : ℕ → ℚ) (l : List LNode) :
    ∀ k, l.map (fun n => n.x) = (List.range' k l.length).map g →
      ((l.enumFrom k).map
          (fun p => { p.2 with x := min p.2.x (L + (p.1 : ℚ) * c) })).map
            (fun n => n.x)
        = (List.range' k l.length).map (fun i : ℕ => min (g i) (L + (i : ℚ) * c)) := by
  induction l with
  | nil => intro k _; simp
  | cons n t ih =>
    intro k h
    simp only [List.length_cons, List.range'_succ, List.enumFrom,
      List.map_cons, List.cons.injEq] at h ⊢
    refine ⟨by rw [h.1], ih (k + 1) h.2⟩

theorem enumFrom_affine_shadow (L c : ℚ) (l : List LNode) :
    ∀ k, ((l.enumFrom k).map
        (fun p => { p.2 with x := L + (p.1 : ℚ) * c })).map shadow
      = l.map shadow := by
  induction l with
  | nil => intro k; simp
  | cons n t ih =>
    intro k
    simp only [List.enumFrom, List.map_cons, List.cons.injEq]
    exact ⟨rfl, ih (k + 1)⟩

theorem enumFrom_minaffine_shadow (L c : ℚ) (l : List LNode) :
    ∀ k, ((l.enumFrom k).map
        (fun p => { p.2 with x := min p.2.x (L + (p.1 : ℚ) * c) })).map shadow
      = l.map shadow := by
  induction l with
  | nil => intro k; simp
  | cons n t ih =>
    intro k
    simp only [List.enumFrom, List.map_cons, List.cons.injEq]
    exact ⟨rfl, ih (k + 1)⟩

theorem unitWidth_single (cg : ℚ) (u : RUnit) (h : u.kind = .single) :
    unitWidth cg u = 0 := by
  unfold unitWidth; rw [h]

theorem unitWidth_couple (cg : ℚ) (u : RUnit) (h : u.kind = .couple) :
    unitWidth cg u = cg := by
  unfold unitWidth; rw [h]

theorem unitWidth_cluster (cg : ℚ) (u : RUnit) (h : u.kind = .cluster) :
    unitWidth cg u = cg * ((u.nodes.length - 1 : ℕ) : ℚ) := by
  unfold unitWidth; rw [h]

theorem uwf_len_single (u : RUnit) (hwf : UnitWF u) (h : u.kind = .single) :
    u.nodes.length = 1 := hwf.2.1 h

theorem uwf_len_couple (u : RUnit) (hwf : UnitWF u) (h : u.kind = .couple) :
    u.nodes.length = 2 := hwf.2.2 h

theorem uwf_ne (u : RUnit) (hwf : UnitWF u) : u.nodes ≠ [] := hwf.1

theorem fwStep_spec (mg cg : ℚ) (anch : String → Option ℚ) (u : RUnit)
    (cursor : Option ℚ) (hwf : UnitWF u) :
    (fwStep mg cg anch cursor u).1.kind = u.kind ∧
    (fwStep mg cg anch cursor u).1.nodes.length = u.nodes.length ∧
    (fwStep mg cg anch cursor u).1.nodes.map shadow = u.nodes.map shadow ∧
    Placed cg (fwStep mg cg anch cursor u).1 (fwCenter mg cg anch cursor u) ∧
    (fwStep mg cg anch cursor u).2
      = fwCenter mg cg anch cursor u + unitWidth cg u / 2 := by
  rcases hk : u.kind with _ | _ | _
  · rw [fwStep_single mg cg anch cursor u hk]
    have hlen : u.nodes.length = 1 := uwf_len_single u hwf hk
    obtain ⟨n, hn⟩ := List.length_eq_one.mp hlen
    dsimp only
    refine ⟨hk, setXAt_kindless_length _ _ _, setXAt_shadow _ _ _, ?_, ?_⟩
    · simp only [Placed, unitWidth, hk, hn, setXAt, List.map_cons, List.map_nil,
        List.length_cons, List.length_nil]
      norm_num [placedXs_one]
    · simp only [unitWidth, hk]
      norm_num
  · rw [fwStep_couple mg cg anch cursor u hk]
    have hlen : u.nodes.length = 2 := uwf_len_couple u hwf hk
    obtain ⟨n0, n1, hn⟩ := List.length_eq_two.mp hlen
    dsimp only
    refine ⟨hk, by rw [setXAt_kindless_length, setXAt_kindless_length],
      by rw [setXAt_shadow, setXAt_shadow], ?_, rfl⟩
    simp only [Placed, unitWidth, hk, hn, setXAt, List.map_cons, List.map_nil,
      List.length_cons, List.length_nil]
    norm_num [placedXs_two, List.cons.injEq]
    ring
  · rw [fwStep_cluster mg cg anch cursor u hk]
    dsimp only
    refine ⟨hk, by simp, ?_, ?_, by ring⟩
    · simp only [List.enum]
      exact enumFrom_affine_shadow _ _ u.nodes 0
    · simp only [Placed, List.enum, placedXs]
      rw [enumFrom_affine_x]
      simp only [unitWidth, hk, List.length_map, List.enumFrom_length,
        List.range_eq_range']

theorem headX_eq (u : RUnit) (n : LNode) (t : List LNode)
    (h : u.nodes = n :: t) : headX u = n.x := by
  unfold headX; rw [h]

theorem bwStep_spec (mg cg : ℚ) (anch : String → Option ℚ) (u : RUnit)
    (cursor : Option ℚ) (fc : ℚ) (hwf : UnitWF u) (hp : Placed cg u fc) :
    (bwStep mg cg anch cursor u).1.kind = u.kind ∧
    (bwStep mg cg anch cursor u).1.nodes.length = u.nodes.length ∧
    (bwStep mg cg anch cursor u).1.nodes.map shadow = u.nodes.map shadow ∧
    Placed cg (bwStep mg cg anch cursor u).1
      (min fc (bwCenter mg cg anch cursor u)) ∧
    ((bwStep mg cg anch cursor u).2
        = bwCenter mg cg anch cursor u - unitWidth cg u / 2 ∨
      (bwStep mg cg anch cursor u).2
        = min fc (bwCenter mg cg anch cursor u) - unitWidth cg u / 2) := by
  rcases hk : u.kind with _ | _ | _
  · have hlen : u.nodes.length = 1 := uwf_len_single u hwf hk
    obtain ⟨n, hn⟩ := List.length_eq_one.mp hlen
    have hxn : n.x = fc := by
      unfold Placed at hp
      rw [unitWidth_single cg u hk, hn] at hp
      simp only [List.map_cons, List.map_nil, List.length_cons,
        List.length_nil] at hp
      rw [placedXs_one] at hp
      simp only [List.cons.injEq] at hp
      rw [hp.1]; ring
    have hh : headX u = fc := by rw [headX_eq u n _ hn, hxn]
    rw [bwStep_single mg cg anch cursor u hk, hh]
    dsimp only
    refine ⟨hk, setXAt_kindless_length _ _ _, setXAt_shadow _ _ _, ?_, ?_⟩
    · simp only [Placed, unitWidth, hk, hn, setXAt, List.map_cons, List.map_nil,
        List.length_cons, List.length_nil]
      norm_num [placedXs_one]
    · right
      rw [unitWidth_single cg u hk]
      norm_num
  · have hlen : u.nodes.length = 2 := uwf_len_couple u hwf hk
    obtain ⟨n0, n1, hn⟩ := List.length_eq_two.mp hlen
    have hx01 : n0.x = fc - cg / 2 ∧ n1.x = fc - cg / 2 + cg := by
      unfold Placed at hp
      rw [unitWidth_couple cg u hk, hn] at hp
      simp only [List.map_cons, List.map_nil, List.length_cons,
        List.length_nil] at hp
      rw [show (0 + 1 + 1 : ℕ) = 2 from rfl, placedXs_two] at hp
      simp only [List.cons.injEq] at hp
      exact ⟨hp.1, hp.2.1⟩
    have hh : headX u = fc - cg / 2 := by rw [headX_eq u n0 _ hn, hx01.1]
    have hg1 : (u.nodes.getD 1 default).x = fc + cg / 2 := by
      rw [hn]
      show n1.x = fc + cg / 2
      rw [hx01.2]; ring
    rw [bwStep_couple mg cg anch cursor u hk, hh, hg1,
      unitWidth_couple cg u hk]
    dsimp only
    have e0 : min (fc - cg / 2) (bwCenter mg cg anch cursor u - cg / 2)
        = min fc (bwCenter mg cg anch cursor u) - cg / 2 := min_sub_sub_right _ _ _
    have e1 : min (fc + cg / 2) (bwCenter mg cg anch cursor u + cg / 2)
        = min fc (bwCenter mg cg anch cursor u) + cg / 2 :=
      min_add_add_right fc (bwCenter mg cg anch cursor u) (cg / 2)
    refine ⟨hk, by rw [setXAt_kindless_length, setXAt_kindless_length],
      by rw [setXAt_shadow, setXAt_shadow], ?_, ?_⟩
    · simp only [Placed, unitWidth, hk, hn, setXAt, List.map_cons, List.map_nil,
        List.length_cons, List.length_nil, e0, e1]
      norm_num [placedXs_two, List.cons.injEq]
      ring
    · right
      exact e0
  · rw [bwStep_cluster mg cg anch cursor u hk]
    dsimp only
    have hplen : u.nodes.map (fun n => n.x)
        = (List.range' 0 u.nodes.length).map
          (fun i : ℕ => fc - unitWidth cg u / 2 + (i : ℚ) * cg) := by
      unfold Placed placedXs at hp
      rw [List.range_eq_range'] at hp
      exact hp
    refine ⟨hk, by simp, ?_, ?_, Or.inl rfl⟩
    · simp only [List.enum]
      exact enumFrom_minaffine_shadow _ _ u.nodes 0
    · simp only [Placed, List.enum, placedXs]
      rw [enumFrom_minaffine_x _ _ _ _ 0 hplen]
      simp only [unitWidth, hk, List.length_map, List.enumFrom_length,
        List.range_eq_range']
      apply List.map_congr_left
      intro i _
      rw [show fc - cg * ((u.nodes.length - 1 : ℕ) : ℚ) / 2 + (i : ℚ) * cg
          = (fc - cg * ((u.nodes.length - 1 : ℕ) : ℚ) / 2) + (i : ℚ) * cg from rfl]
      rw [show bwCenter mg cg anch cursor u
            - cg * ((u.nodes.length - 1 : ℕ) : ℚ) / 2 + (i : ℚ) * cg
          = (bwCenter mg cg anch cursor u
            - cg * ((u.nodes.length - 1 : ℕ) : ℚ) / 2) + (i : ℚ) * cg from rfl]
      rw [min_add_add_right, min_sub_sub_right]

/-- The bundle of facts each sweep preserves for one unit: kind, member
count, identities and y coordinates, together with the placement shape. -/
def StepOK (cg : ℚ) (u : RUnit) (p : RUnit × ℚ) : Prop :=
  p.1.kind = u.kind ∧
  p.1.nodes.length = u.nodes.length ∧
  p.1.nodes.map shadow = u.nodes.map shadow ∧
  Placed cg p.1 p.2

theorem unitWidth_stepOK (cg : ℚ) {u : RUnit} {p : RUnit × ℚ}
    (h : StepOK cg u p) : unitWidth cg p.1 = unitWidth cg u :=
  unitWidth_congr cg u p.1 h.1 h.2.1

theorem UnitWF_congr (u v : RUnit) (hk : v.kind = u.kind)
    (hl : v.nodes.length = u.nodes.length) (h : UnitWF u) : UnitWF v := by
  refine ⟨?_, ?_, ?_⟩
  · intro hv
    rw [hv] at hl
    exact h.1 (List.eq_nil_of_length_eq_zero hl.symm)
  · intro hs
    rw [hl]
    exact h.2.1 (hk ▸ hs)
  · intro hs
    rw [hl]
    exact h.2.2 (hk ▸ hs)

theorem forwardPass_spec (mg cg : ℚ) (anch : String → Option ℚ) :
    ∀ (us : List RUnit) (cursor : Option ℚ),
      (∀ u ∈ us, UnitWF u) →
      ∃ pcs : List (RUnit × ℚ),
        forwardPass mg cg anch cursor us = pcs.map Prod.fst ∧
        List.Forall₂ (StepOK cg) us pcs ∧
        List.Chain' (fun a b =>
          a.2 + unitWidth cg a.1 / 2 + mg + unitWidth cg b.1 / 2 ≤ b.2) pcs ∧
        (∀ cur, cursor = some cur →
          ∀ p, pcs.head? = some p → cur + mg + unitWidth cg p.1 / 2 ≤ p.2) := by
  intro us
  induction us with
  | nil =>
    intro cursor _
    exact ⟨[], rfl, List.Forall₂.nil, List.chain'_nil, by intro _ _ p hp; cases hp⟩
  | cons u rest ih =>
    intro cursor hwf
    obtain ⟨h1, h2, h3, h4, h5⟩ :=
      fwStep_spec mg cg anch u cursor (hwf u (by simp))
    obtain ⟨pcs, hmap, hfa, hch, hhd⟩ :=
      ih (some (fwStep mg cg anch cursor u).2) (fun v hv => hwf v (by simp [hv]))
    refine ⟨((fwStep mg cg anch cursor u).1, fwCenter mg cg anch cursor u) :: pcs,
      ?_, ?_, ?_, ?_⟩
    · show (fwStep mg cg anch cursor u).1
          :: forwardPass mg cg anch (some (fwStep mg cg anch cursor u).2) rest = _
      rw [hmap]
      rfl
    · exact List.Forall₂.cons ⟨h1, h2, h3, h4⟩ hfa
    · rw [List.chain'_cons']
      refine ⟨?_, hch⟩
      intro p hp
      have := hhd (fwStep mg cg anch cursor u).2 rfl p hp
      rw [h5] at this
      have hwq : unitWidth cg (fwStep mg cg anch cursor u).1 = unitWidth cg u :=
        unitWidth_congr cg u _ h1 h2
      rw [hwq]
      linarith
    · intro cur hc p hp
      simp only [List.head?_cons, Option.some.injEq] at hp
      subst hc
      have hlow := fwCenter_lower mg cg anch cur u
      have hwq : unitWidth cg (fwStep mg cg anch (some cur) u).1 = unitWidth cg u :=
        unitWidth_congr cg u _ h1 h2
      rw [← hp]
      dsimp only
      rw [hwq]
      exact hlow

/-- The data carried about the already-processed right neighbor during the
backward sweep: its forward left edge and its backward target left edge. -/
def RightOK (cursor : Option ℚ) (info : Option (ℚ × ℚ)) : Prop :=
  match cursor, info with
  | none, none => True
  | some c, some i => c = i.2 ∨ c = min i.1 i.2
  | _, _ => False

theorem backwardGo_spec (mg cg : ℚ) (anch : String → Option ℚ) :
    ∀ (rpcs : List (RUnit × ℚ)) (cursor : Option ℚ) (info : Option (ℚ × ℚ)),
      (∀ p ∈ rpcs, UnitWF p.1 ∧ Placed cg p.1 p.2) →
      List.Chain' (fun a b =>
        b.2 + unitWidth cg b.1 / 2 + mg + unitWidth cg a.1 / 2 ≤ a.2) rpcs →
      RightOK cursor info →
      (∀ i : ℚ × ℚ, info = some i → ∀ p, rpcs.head? = some p →
        p.2 + unitWidth cg p.1 / 2 + mg ≤ i.1) →
      ∃ qcs : List (RUnit × ℚ),
        backwardGo mg cg anch cursor (rpcs.map Prod.fst) = qcs.map Prod.fst ∧
        List.Forall₂ (fun p q => StepOK cg p.1 q) rpcs.reverse qcs ∧
        List.Chain' (fun a b =>
          a.2 + unitWidth cg a.1 / 2 + mg + unitWidth cg b.1 / 2 ≤ b.2) qcs ∧
        (∀ i : ℚ × ℚ, info = some i → ∀ q, qcs.getLast? = some q →
          q.2 + unitWidth cg q.1 / 2 + mg ≤ min i.1 i.2) := by
  intro rpcs
  induction rpcs with
  | nil =>
    intro cursor info _ _ _ _
    exact ⟨[], rfl, by simp, List.chain'_nil, by intro i _ q hq; cases hq⟩
  | cons p rest ih =>
    intro cursor info hwp hch hro hlink
    obtain ⟨hwf, hpl⟩ := hwp p (by simp)
    obtain ⟨b1, b2, b3, b4, b5⟩ :=
      bwStep_spec mg cg anch p.1 cursor p.2 hwf hpl
    set BC := bwCenter mg cg anch cursor p.1 with hBC
    set u2 := (bwStep mg cg anch cursor p.1).1 with hu2
    set c2 := (bwStep mg cg anch cursor p.1).2 with hc2
    set w := unitWidth cg p.1 with hw
    have hro2 : RightOK (some c2) (some (p.2 - w / 2, BC - w / 2)) := by
      rcases b5 with h | h
      · exact Or.inl h
      · right
        rw [h, hBC, hw, min_sub_sub_right]
    have hlink2 : ∀ i : ℚ × ℚ, some (p.2 - w / 2, BC - w / 2) = some i →
        ∀ q, rest.head? = some q →
          q.2 + unitWidth cg q.1 / 2 + mg ≤ i.1 := by
      intro i hi q hq
      obtain rfl : (p.2 - w / 2, BC - w / 2) = i := by injection hi
      have := List.chain'_cons'.mp hch
      have h2 := this.1 q hq
      dsimp only
      linarith
    obtain ⟨qcs, hmap, hfa, hch2, hlast⟩ :=
      ih (some c2) (some (p.2 - w / 2, BC - w / 2))
        (fun v hv => hwp v (by simp [hv])) (List.chain'_cons'.mp hch).2
        hro2 hlink2
    refine ⟨qcs ++ [(u2, min p.2 BC)], ?_, ?_, ?_, ?_⟩
    · show backwardGo mg cg anch cursor (p.1 :: rest.map Prod.fst) = _
      show backwardGo mg cg anch (some c2) (rest.map Prod.fst) ++ [u2] = _
      rw [hmap, List.map_append]
      rfl
    · rw [List.reverse_cons]
      exact List.rel_append hfa (List.Forall₂.cons ⟨b1, b2, b3, b4⟩ List.Forall₂.nil)
    · rw [List.chain'_append]
      refine ⟨hch2, List.chain'_singleton _, ?_⟩
      intro a ha b hb
      simp only [List.head?_cons, Option.mem_def, Option.some.injEq] at hb
      subst hb
      have hl := hlast (p.2 - w / 2, BC - w / 2) rfl a (Option.mem_def.mp ha)
      dsimp only at hl
      rw [min_sub_sub_right] at hl
      have hwq : unitWidth cg u2 = w := unitWidth_congr cg p.1 u2 b1 b2
      dsimp only
      rw [hwq]
      linarith
    · intro i hi q hq
      rw [List.getLast?_append_cons] at hq
      simp only [List.getLast?_singleton, Option.some.injEq] at hq
      subst hq
      dsimp only
      have hwq : unitWidth cg u2 = w := unitWidth_congr cg p.1 u2 b1 b2
      rw [hwq]
      rcases cursor with _ | c
      · rcases info with _ | i2
        · cases hi
        · exact hro.elim
      · rcases info with _ | i2
        · exact hro.elim
        · injection hi with hii
          subst hii
          have hup : BC ≤ c - (mg + w / 2) := bwCenter_upper mg cg anch c p.1
          have hfl : p.2 + w / 2 + mg ≤ i2.1 := hlink i2 rfl p (by simp)
          simp only [RightOK] at hro
          refine le_min ?_ ?_
          · have hmp : min p.2 BC ≤ p.2 := min_le_left _ _
            linarith
          · have hmb : min p.2 BC ≤ BC := min_le_right _ _
            rcases hro with h | h
            · rw [h] at hup
              linarith
            · have hci : c ≤ i2.2 := by
                rw [h]
                exact min_le_right _ _
              linarith

theorem forall₂_mem_r {α β : Type} {R : α → β → Prop} :
    ∀ {l₁ : List α} {l₂ : List β}, List.Forall₂ R l₁ l₂ →
      ∀ b ∈ l₂, ∃ a ∈ l₁, R a b := by
  intro l₁ l₂ h
  induction h with
  | nil => intro b hb; cases hb
  | @cons a b t₁ t₂ hR _ ih =>
    intro b2 hb2
    rcases List.mem_cons.mp hb2 with rfl | hmem
    · exact ⟨a, by simp, hR⟩
    · obtain ⟨a2, ha2, hr2⟩ := ih b2 hmem
      exact ⟨a2, by simp [ha2], hr2⟩

theorem width_len (cg : ℚ) (u : RUnit) (hwf : UnitWF u) :
    unitWidth cg u = cg * ((u.nodes.length - 1 : ℕ) : ℚ) := by
  rcases hk : u.kind with _ | _ | _
  · rw [unitWidth_single cg u hk, uwf_len_single u hwf hk]
    norm_num
  · rw [unitWidth_couple cg u hk, uwf_len_couple u hwf hk]
    norm_num
  · exact unitWidth_cluster cg u hk

theorem range'_getLast (s k : ℕ) :
    (List.range' s (k + 1)).getLast? = some (s + k) := by
  induction k generalizing s with
  | zero => simp [List.range'_succ]
  | succ k ih =>
    rw [List.range'_succ, List.range'_succ, List.getLast?_cons_cons,
      ← List.range'_succ, ih]
    congr 1
    omega

theorem placedXs_head (cg w ctr : ℚ) (k : ℕ) :
    placedXs cg w ctr (k + 1) = (ctr - w / 2 + (0 : ℚ) * cg)
      :: (List.range' 1 k).map (fun i : ℕ => ctr - w / 2 + (i : ℚ) * cg) := by
  unfold placedXs
  rw [List.range_eq_range', List.range'_succ, List.map_cons]
  norm_num

theorem placedXs_getLast (cg w ctr : ℚ) (k : ℕ) :
    (placedXs cg w ctr (k + 1)).getLast?
      = some (ctr - w / 2 + (k : ℚ) * cg) := by
  unfold placedXs
  rw [List.range_eq_range', List.getLast?_map, range'_getLast]
  simp

theorem edges_of_placed (cg : ℚ) (u : RUnit) (c : ℚ) (hwf : UnitWF u)
    (hp : Placed cg u c) :
    headX u = c - unitWidth cg u / 2 ∧ lastX u = c + unitWidth cg u / 2 := by
  obtain ⟨n, t, hn⟩ := List.exists_cons_of_ne_nil (uwf_ne u hwf)
  unfold Placed at hp
  constructor
  · rw [headX_eq u n t hn]
    rw [hn] at hp
    simp only [List.map_cons, List.length_cons] at hp
    rw [placedXs_head] at hp
    have := (List.cons.injEq _ _ _ _).mp hp
    rw [this.1]
    ring
  · have hlast : (u.nodes.map (fun n => n.x)).getLast?
        = some (c - unitWidth cg u / 2
          + ((u.nodes.length - 1 : ℕ) : ℚ) * cg) := by
      rw [hp]
      have hlen : u.nodes.length = (u.nodes.length - 1) + 1 := by
        rw [hn]; simp
      rw [hlen, placedXs_getLast]
      norm_num
    rw [List.getLast?_map] at hlast
    unfold lastX
    rcases hgl : u.nodes.getLast? with _ | nl
    · rw [hgl] at hlast
      cases hlast
    · rw [hgl] at hlast
      simp only [Option.map_some', Option.some.injEq] at hlast
      simp only [Option.getD_some]
      rw [hlast, width_len cg u hwf]
      ring

theorem wf_cluster (ns : List LNode) (ci : Nat) (h : ns ≠ []) :
    UnitWF ⟨.cluster, ns, ci⟩ := by
  refine ⟨h, ?_, ?_⟩ <;> intro h2 <;> simp at h2

theorem wf_couple (a b : LNode) (ci : Nat) : UnitWF ⟨.couple, [a, b], ci⟩ := by
  refine ⟨by simp, ?_, ?_⟩
  · intro h2; simp at h2
  · intro _; rfl

theorem wf_single (a : LNode) (ci : Nat) : UnitWF ⟨.single, [a], ci⟩ := by
  refine ⟨by simp, ?_, ?_⟩
  · intro _; rfl
  · intro h2; simp at h2

theorem clusterPass_wf (anch : String → Option ℚ)
    (sb : String → Option (List LNode)) :
    ∀ (l : List LNode) (seen : List String) (units : List RUnit),
      (∀ u ∈ units, UnitWF u) →
      ∀ u ∈ (clusterPass anch sb l seen units).2, UnitWF u := by
  intro l
  induction l with
  | nil => intro seen units h u hu; exact h u hu
  | cons n rest ih =>
    intro seen units h u hu
    simp only [clusterPass] at hu
    split at hu
    · exact ih seen units h u hu
    · split at hu
      · refine ih _ _ ?_ u hu
        intro v hv
        rcases List.mem_append.mp hv with hv2 | hv2
        · exact h v hv2
        · simp only [List.mem_singleton] at hv2
          subst hv2
          apply wf_cluster
          split
          · simp
          · simp
      · exact ih seen units h u hu

theorem coupleSinglePass_wf (sm : String → Option LNode) :
    ∀ (l : List LNode) (seen : List String) (units : List RUnit),
      (∀ u ∈ units, UnitWF u) →
      ∀ u ∈ coupleSinglePass sm l seen units, UnitWF u := by
  intro l
  induction l with
  | nil => intro seen units h u hu; exact h u hu
  | cons n rest ih =>
    intro seen units h u hu
    simp only [coupleSinglePass] at hu
    split at hu
    · exact ih seen units h u hu
    · split at hu
      · split at hu
        · refine ih _ _ ?_ u hu
          intro v hv
          rcases List.mem_append.mp hv with hv2 | hv2
          · exact h v hv2
          · simp only [List.mem_singleton] at hv2
            subst hv2
            exact wf_couple _ _ _
        · refine ih _ _ ?_ u hu
          intro v hv
          rcases List.mem_append.mp hv with hv2 | hv2
          · exact h v hv2
          · simp only [List.mem_singleton] at hv2
            subst hv2
            exact wf_single _ _
      · refine ih _ _ ?_ u hu
        intro v hv
        rcases List.mem_append.mp hv with hv2 | hv2
        · exact h v hv2
        · simp only [List.mem_singleton] at hv2
          subst hv2
          exact wf_single _ _

theorem buildUnits_wf (anch : String → Option ℚ) (rels : List Rel)
    (rowNodes : List LNode) :
    ∀ u ∈ buildUnits anch rels rowNodes, UnitWF u := by
  intro u hu
  unfold buildUnits at hu
  have h1 := (List.perm_insertionSort
    (fun u v => unitAnchor anch u ≤ unitAnchor anch v) _).mem_iff.mp hu
  have h2 := (List.perm_insertionSort
    (fun u v => unitMeanX u ≤ unitMeanX v) _).mem_iff.mp h1
  exact coupleSinglePass_wf _ _ _ _ (clusterPass_wf _ _ _ _ _ (by simp)) u h2

theorem chain'_transfer {α β : Type} (f : α → β) (P : α → Prop)
    (R : α → α → Prop) (S : β → β → Prop)
    (himp : ∀ a b, P a → P b → R a b → S (f a) (f b)) :
    ∀ l : List α, (∀ a ∈ l, P a) → List.Chain' R l →
      List.Chain' S (l.map f) := by
  intro l
  induction l with
  | nil => intro _ _; simp
  | cons a t ih =>
    intro hP hc
    rw [List.map_cons, List.chain'_cons']
    refine ⟨?_, ih (fun x hx => hP x (by simp [hx]))
      (List.chain'_cons'.mp hc).2⟩
    intro b hb
    cases t with
    | nil => simp at hb
    | cons c t2 =>
      simp only [List.map_cons, List.head?_cons, Option.mem_def,
        Option.some.injEq] at hb
      subst hb
      exact himp a c (hP a (by simp)) (hP c (by simp))
        ((List.chain'_cons'.mp hc).1 c rfl)

/-- The identity-and-vertical content of a whole unit. -/
def unitShadow (u : RUnit) : List (String × ℚ) := u.nodes.map shadow

theorem forall₂_shadow_fw (cg : ℚ) :
    ∀ {us pcs : List (RUnit × ℚ)},
      List.Forall₂ (fun p q => StepOK cg p.1 q) us pcs →
      (pcs.map Prod.fst).map unitShadow = (us.map Prod.fst).map unitShadow := by
  intro us pcs h
  induction h with
  | nil => rfl
  | @cons a b t1 t2 hR _ ih =>
    simp only [List.map_cons, List.cons.injEq]
    exact ⟨hR.2.2.1, ih⟩

theorem forall₂_shadow_fw0 (cg : ℚ) :
    ∀ {us : List RUnit} {pcs : List (RUnit × ℚ)},
      List.Forall₂ (StepOK cg) us pcs →
      (pcs.map Prod.fst).map unitShadow = us.map unitShadow := by
  intro us pcs h
  induction h with
  | nil => rfl
  | @cons a b t1 t2 hR _ ih =>
    simp only [List.map_cons, List.cons.injEq]
    exact ⟨hR.2.2.1, ih⟩

theorem resolveRowUnits_spec (mg cg : ℚ) (anch : String → Option ℚ)
    (rels : List Rel) (rowNodes : List LNode) :
    ∃ qcs : List (RUnit × ℚ),
      resolveRowUnits mg cg anch rels rowNodes = qcs.map Prod.fst ∧
      (∀ q ∈ qcs, UnitWF q.1 ∧ Placed cg q.1 q.2) ∧
      List.Chain' (fun a b =>
        a.2 + unitWidth cg a.1 / 2 + mg + unitWidth cg b.1 / 2 ≤ b.2) qcs ∧
      (qcs.map Prod.fst).map unitShadow
        = (buildUnits anch rels rowNodes).map unitShadow := by
  have hwf := buildUnits_wf anch rels rowNodes
  obtain ⟨pcs, hfmap, hffa, hfch, _⟩ :=
    forwardPass_spec mg cg anch (buildUnits anch rels rowNodes) none hwf
  have hWP : ∀ p ∈ pcs.reverse, UnitWF p.1 ∧ Placed cg p.1 p.2 := by
    intro p hp
    rw [List.mem_reverse] at hp
    obtain ⟨u, hu, hR⟩ := forall₂_mem_r hffa p hp
    exact ⟨UnitWF_congr u p.1 hR.1 hR.2.1 (hwf u hu), hR.2.2.2⟩
  have hrch : List.Chain' (fun a b =>
      b.2 + unitWidth cg b.1 / 2 + mg + unitWidth cg a.1 / 2 ≤ a.2)
      pcs.reverse := by
    rw [List.chain'_reverse]
    exact hfch
  obtain ⟨qcs, hbmap, hbfa, hbch, _⟩ :=
    backwardGo_spec mg cg anch pcs.reverse none none hWP hrch trivial
      (by intro i hi; cases hi)
  rw [List.reverse_reverse] at hbfa
  refine ⟨qcs, ?_, ?_, hbch, ?_⟩
  · unfold resolveRowUnits backwardPass
    rw [hfmap, ← List.map_reverse]
    exact hbmap
  · intro q hq
    obtain ⟨p, hp, hR⟩ := forall₂_mem_r hbfa q hq
    obtain ⟨u, hu, hR0⟩ := forall₂_mem_r hffa p hp
    have hwfp : UnitWF p.1 := UnitWF_congr u p.1 hR0.1 hR0.2.1 (hwf u hu)
    exact ⟨UnitWF_congr p.1 q.1 hR.1 hR.2.1 hwfp, hR.2.2.2⟩
  · rw [forall₂_shadow_fw cg hbfa]
    exact forall₂_shadow_fw0 cg hffa

theorem foldl_inv {α β : Type} (step : β → α → β) (Inv : β → Prop)
    (hstep : ∀ b a, Inv b → Inv (step b a)) :
    ∀ (l : List α) (b : β), Inv b → Inv (l.foldl step b) := by
  intro l
  induction l with
  | nil => intro b hb; exact hb
  | cons a t ih => intro b hb; exact ih (step b a) (hstep b a hb)

theorem mkSpouseMap_mem (rowNodes : List LNode) (prs : List (String × String)) :
    ∀ k v, mkSpouseMap rowNodes prs k = some v → v ∈ rowNodes := by
  unfold mkSpouseMap
  refine foldl_inv _ (fun m : String → Option LNode => ∀ k v, m k = some v → v ∈ rowNodes) ?_ prs _
    (by intro k v hv; cases hv)
  intro m pr hm
  rcases hfa : rowNodes.find? (fun n => n.id = pr.1) with _ | aN <;>
    rcases hfb : rowNodes.find? (fun n => n.id = pr.2) with _ | bN <;>
    rw [hfa, hfb]
  · exact hm
  · exact hm
  · exact hm
  · intro k v hv
    dsimp only at hv
    by_cases h1 : k = pr.2
    · rw [if_pos h1] at hv
      injection hv with hv2
      subst hv2
      exact List.mem_of_find?_eq_some hfa
    · rw [if_neg h1] at hv
      by_cases h2 : k = pr.1
      · rw [if_pos h2] at hv
        injection hv with hv2
        subst hv2
        exact List.mem_of_find?_eq_some hfb
      · rw [if_neg h2] at hv
        exact hm k v hv

theorem pushVal_inv (sorted : List LNode) (m : String → Option (List LNode))
    (kk : String) (vv : LNode)
    (hm : ∀ k l, m k = some l → ∀ w ∈ l, w ∈ sorted) (hvv : vv ∈ sorted) :
    ∀ k l, pushVal m kk vv k = some l → ∀ w ∈ l, w ∈ sorted := by
  intro k l hl w hw
  unfold pushVal at hl
  split at hl
  · rcases hmk : m kk with _ | l0
    · rw [hmk] at hl; cases hl
    · rw [hmk] at hl
      simp only [Option.map_some', Option.some.injEq] at hl
      subst hl
      rcases List.mem_append.mp hw with hw2 | hw2
      · exact hm kk l0 hmk w hw2
      · simp only [List.mem_singleton] at hw2
        subst hw2
        exact hvv
  · exact hm k l hl w hw

theorem mkSpousesById_mem (sorted : List LNode) (prs : List (String × String)) :
    ∀ k l, mkSpousesById sorted prs k = some l → ∀ v ∈ l, v ∈ sorted := by
  unfold mkSpousesById
  refine foldl_inv _
    (fun m : String → Option (List LNode) =>
      ∀ k l, m k = some l → ∀ v ∈ l, v ∈ sorted) ?_ prs _ ?_
  · intro m pr hm
    split
    · rcases hfa : sorted.find? (fun n => n.id = pr.1) with _ | aN <;>
        rcases hfb : sorted.find? (fun n => n.id = pr.2) with _ | bN <;>
        rw [hfa, hfb]
      · exact hm
      · exact hm
      · exact hm
      · exact pushVal_inv sorted _ _ _
          (pushVal_inv sorted _ _ _ hm (List.mem_of_find?_eq_some hfb))
          (List.mem_of_find?_eq_some hfa)
    · exact hm
  · intro k l hl v hv
    dsimp only at hl
    split at hl
    · injection hl with hl2
      subst hl2
      cases hv
    · cases hl

theorem clusterPass_mem (anch : String → Option ℚ)
    (sb : String → Option (List LNode)) (P : LNode → Prop)
    (hsb : ∀ k l, sb k = some l → ∀ v ∈ l, P v) :
    ∀ (l : List LNode) (seen : List String) (units : List RUnit),
      (∀ x ∈ l, P x) →
      (∀ u ∈ units, ∀ n ∈ u.nodes, P n) →
      ∀ u ∈ (clusterPass anch sb l seen units).2, ∀ n ∈ u.nodes, P n := by
  intro l
  induction l with
  | nil => intro seen units _ hu u hu2; exact hu u hu2
  | cons x rest ih =>
    intro seen units hl hu u hu2
    simp only [clusterPass] at hu2
    split at hu2
    · exact ih seen units (fun y hy => hl y (by simp [hy])) hu u hu2
    · split at hu2
      · refine ih _ _ (fun y hy => hl y (by simp [hy])) ?_ u hu2
        intro v hv n hn
        rcases List.mem_append.mp hv with hv2 | hv2
        · exact hu v hv2 n hn
        · simp only [List.mem_singleton] at hv2
          subst hv2
          have hPS : ∀ q ∈ List.insertionSort (fun a b : LNode => a.x ≤ b.x)
              ((((sb x.id).getD []).filter
                (fun p => jsRound p.y = jsRound x.y)).filter
                  (fun p => ¬ seen.contains p.id)), P q := by
            intro q hq
            have hq2 := (List.perm_insertionSort (fun a b : LNode => a.x ≤ b.x)
              _).mem_iff.mp hq
            have hq3 := List.mem_of_mem_filter hq2
            have hq4 := List.mem_of_mem_filter hq3
            rcases hsbx : sb x.id with _ | lst
            · rw [hsbx] at hq4
              cases hq4
            · rw [hsbx] at hq4
              exact hsb x.id lst hsbx q hq4
          simp only at hn
          split at hn
          · rename_i hlen2
            obtain ⟨p0, p1, hps⟩ := List.length_eq_two.mp hlen2
            rw [hps] at hn
            have hp0 : P p0 := hPS p0 (by rw [hps]; simp)
            have hp1 : P p1 := hPS p1 (by rw [hps]; simp)
            simp only [List.getD_cons_zero, List.getD_cons_succ,
              List.mem_cons, List.mem_singleton, List.not_mem_nil,
              or_false] at hn
            rcases hn with hn | hn | hn
            · subst hn
              split_ifs
              · exact hp0
              · exact hp1
            · rw [hn]
              exact hl x (by simp)
            · subst hn
              split_ifs
              · exact hp1
              · exact hp0
          · rcases List.mem_append.mp hn with hn2 | hn2
            · exact hPS n (List.mem_of_mem_take hn2)
            · rcases List.mem_cons.mp hn2 with hn3 | hn3
              · rw [hn3]
                exact hl x (by simp)
              · exact hPS n (List.mem_of_mem_drop hn3)
      · exact ih seen units (fun y hy => hl y (by simp [hy])) hu u hu2

theorem coupleSinglePass_mem (sm : String → Option LNode) (P : LNode → Prop)
    (hsm : ∀ k v, sm k = some v → P v) :
    ∀ (l : List LNode) (seen : List String) (units : List RUnit),
      (∀ x ∈ l, P x) →
      (∀ u ∈ units, ∀ n ∈ u.nodes, P n) →
      ∀ u ∈ coupleSinglePass sm l seen units, ∀ n ∈ u.nodes, P n := by
  intro l
  induction l with
  | nil => intro seen units _ hu u hu2; exact hu u hu2
  | cons x rest ih =>
    intro seen units hl hu u hu2
    simp only [coupleSinglePass] at hu2
    split at hu2
    · exact ih seen units (fun y hy => hl y (by simp [hy])) hu u hu2
    · split at hu2
      · split at hu2
        · rename_i p hp _
          refine ih _ _ (fun y hy => hl y (by simp [hy])) ?_ u hu2
          intro v hv n hn
          rcases List.mem_append.mp hv with hv2 | hv2
          · exact hu v hv2 n hn
          · simp only [List.mem_singleton] at hv2
            subst hv2
            simp only [List.mem_cons, List.mem_singleton, List.not_mem_nil,
              or_false] at hn
            have hPx : P x := hl x (by simp)
            have hPp : P p := hsm x.id p hp
            rcases hn with hn | hn
            · subst hn
              split_ifs
              · exact hPx
              · exact hPp
            · subst hn
              split_ifs
              · exact hPp
              · exact hPx
        · refine ih _ _ (fun y hy => hl y (by simp [hy])) ?_ u hu2
          intro v hv n hn
          rcases List.mem_append.mp hv with hv2 | hv2
          · exact hu v hv2 n hn
          · simp only [List.mem_singleton] at hv2
            subst hv2
            simp only [List.mem_singleton] at hn
            rw [hn]
            exact hl x (by simp)
      · refine ih _ _ (fun y hy => hl y (by simp [hy])) ?_ u hu2
        intro v hv n hn
        rcases List.mem_append.mp hv with hv2 | hv2
        · exact hu v hv2 n hn
        · simp only [List.mem_singleton] at hv2
          subst hv2
          simp only [List.mem_singleton] at hn
          rw [hn]
          exact hl x (by simp)

theorem buildUnits_mem (anch : String → Option ℚ) (rels : List Rel)
    (rowNodes : List LNode) :
    ∀ u ∈ buildUnits anch rels rowNodes, ∀ n ∈ u.nodes, n ∈ rowNodes := by
  intro u hu
  unfold buildUnits at hu
  have h1 := (List.perm_insertionSort
    (fun u v => unitAnchor anch u ≤ unitAnchor anch v) _).mem_iff.mp hu
  have h2 := (List.perm_insertionSort
    (fun u v => unitMeanX u ≤ unitMeanX v) _).mem_iff.mp h1
  have hsorted : ∀ x ∈ List.insertionSort (fun a b => a.x ≤ b.x) rowNodes,
      x ∈ rowNodes :=
    fun x hx => (List.perm_insertionSort (fun a b => a.x ≤ b.x)
      rowNodes).mem_iff.mp hx
  refine coupleSinglePass_mem _ (fun n => n ∈ rowNodes) ?_ _ _ _ hsorted ?_ u h2
  · intro k v hv
    exact mkSpouseMap_mem rowNodes _ k v hv
  · refine clusterPass_mem anch _ (fun n => n ∈ rowNodes) ?_ _ _ _ hsorted
      (by intro v hv; cases hv)
    intro k l hl v hv
    exact hsorted v (mkSpousesById_mem _ _ k l hl v hv)

/-- C1: after per-row collision resolution (both the left-to-right forward
sweep and the right-to-left tightening pass), for every row and every pair
of units adjacent in the row's final order, the left edge of the next unit
minus the right edge of the previous unit is at least the configured row
minimum gap. -/
theorem C1_row_min_gap_invariant (mg cg : ℚ) (anch : String → Option ℚ)
    (rels : List Rel) (rowNodes : List LNode) :
    List.Chain' (fun u v => mg ≤ headX v - lastX u)
      (resolveRowUnits mg cg anch rels rowNodes) := by
  obtain ⟨qcs, hmap, hqp, hch, _⟩ :=
    resolveRowUnits_spec mg cg anch rels rowNodes
  rw [hmap]
  refine chain'_transfer Prod.fst (fun q => UnitWF q.1 ∧ Placed cg q.1 q.2)
    _ _ ?_ qcs hqp hch
  intro a b ha hb hr
  obtain ⟨_, ea2⟩ := edges_of_placed cg a.1 a.2 ha.1 ha.2
  obtain ⟨eb1, _⟩ := edges_of_placed cg b.1 b.2 hb.1 hb.2
  rw [eb1, ea2]
  linarith

/-- C2: the unit list entering the sweeps is ordered by anchor, and with a
positive minimum gap and a nonnegative spouse gap the sweeps keep that
left-to-right order strictly: along the final unit list the left edges are
strictly increasing, so no two units ever cross. -/
theorem C2_order_preservation (mg cg : ℚ) (anch : String → Option ℚ)
    (rels : List Rel) (rowNodes : List LNode)
    (hmg : 0 < mg) (hcg : 0 ≤ cg) :
    List.Pairwise (fun u v => unitAnchor anch u ≤ unitAnchor anch v)
      (buildUnits anch rels rowNodes) ∧
    List.Pairwise (fun u v : RUnit => headX u < headX v)
      (resolveRowUnits mg cg anch rels rowNodes) := by
  constructor
  · unfold buildUnits
    haveI : IsTotal RUnit
        (fun u v => unitAnchor anch u ≤ unitAnchor anch v) :=
      ⟨fun a b => le_total _ _⟩
    haveI : IsTrans RUnit
        (fun u v => unitAnchor anch u ≤ unitAnchor anch v) :=
      ⟨fun a b c h1 h2 => le_trans h1 h2⟩
    exact List.sorted_insertionSort _ _
  · obtain ⟨qcs, hmap, hqp, hch, _⟩ :=
      resolveRowUnits_spec mg cg anch rels rowNodes
    rw [hmap]
    haveI : IsTrans RUnit (fun u v : RUnit => headX u < headX v) :=
      ⟨fun a b c h1 h2 => lt_trans h1 h2⟩
    rw [← List.chain'_iff_pairwise]
    refine chain'_transfer Prod.fst (fun q => UnitWF q.1 ∧ Placed cg q.1 q.2)
      _ _ ?_ qcs hqp hch
    intro a b ha hb hr
    obtain ⟨ea1, _⟩ := edges_of_placed cg a.1 a.2 ha.1 ha.2
    obtain ⟨eb1, _⟩ := edges_of_placed cg b.1 b.2 hb.1 hb.2
    have hwa : 0 ≤ unitWidth cg a.1 := by
      rw [width_len cg a.1 ha.1]
      exact mul_nonneg hcg (by positivity)
    have hwb : 0 ≤ unitWidth cg b.1 := by
      rw [width_len cg b.1 hb.1]
      exact mul_nonneg hcg (by positivity)
    rw [ea1, eb1]
    linarith

/-- Closed instance of C2 at the default configuration on a concrete row. -/
theorem C2_order_preservation_witness :
    List.Pairwise (fun u v => unitAnchor (fun _ => (none : Option ℚ)) u
        ≤ unitAnchor (fun _ => (none : Option ℚ)) v)
      (buildUnits (fun _ => none) [Rel.spouse "a" "b"]
        [⟨"a", 0, 0⟩, ⟨"b", 10, 0⟩]) ∧
    List.Pairwise (fun u v : RUnit => headX u < headX v)
      (resolveRowUnits 250 200 (fun _ => none) [Rel.spouse "a" "b"]
        [⟨"a", 0, 0⟩, ⟨"b", 10, 0⟩]) :=
  C2_order_preservation 250 200 (fun _ => none) [Rel.spouse "a" "b"]
    [⟨"a", 0, 0⟩, ⟨"b", 10, 0⟩] (by norm_num) (by norm_num)

/-- C10: the collision-resolution stage only rewrites x coordinates: the
final units carry exactly the identities and y coordinates of the units
built from the row, and every node of every built unit is one of the row's
input nodes. -/
theorem C10_collision_frame (mg cg : ℚ) (anch : String → Option ℚ)
    (rels : List Rel) (rowNodes : List LNode) :
    (resolveRowUnits mg cg anch rels rowNodes).map unitShadow
      = (buildUnits anch rels rowNodes).map unitShadow ∧
    (buildUnits anch rels rowNodes).all
      (fun u => u.nodes.all (fun n => decide (n ∈ rowNodes))) = true := by
  constructor
  · obtain ⟨qcs, hmap, _, _, hsh⟩ :=
      resolveRowUnits_spec mg cg anch rels rowNodes
    rw [hmap]
    exact hsh
  · rw [List.all_eq_true]
    intro u hu
    rw [List.all_eq_true]
    intro n hn
    exact decide_eq_true_iff.mpr (buildUnits_mem anch rels rowNodes u hu n hn)

/-- A person record as the tree view consumes it. -/
structure Person where
  id : String
  firstName : String
  lastName : String
  gender : Option String
  generation : Option ℚ
deriving DecidableEq

/-- The person-by-id Map (later duplicate entries overwrite earlier ones,
as the JS Map constructor does). -/
def peopleById (people : List Person) (k : String) : Option Person :=
  people.reverse.find? (fun p => p.id = k)

/-- The parent id list of a parent-child record: the parents array when
nonempty, otherwise the truthy legacy parentId. -/
def parentIdsOf (parents : List String) (parentId : Option String) :
    List String :=
  if parents.length ≠ 0 then parents
  else
    match parentId with
    | some p => if p ≠ "" then [p] else []
    | none => []

/-- JS Set.add on a list model: append unless already present. -/
def setAdd (l : List String) (x : String) : List String :=
  if l.contains x then l else l ++ [x]

/-- Add a child under a parent in the childrenByParent map, preserving key
insertion order as a JS Map does. -/
def cbpAdd : List (String × List String) → String → String →
    List (String × List String)
  | [], pid, cid => [(pid, [cid])]
  | e :: t, pid, cid =>
    if e.1 = pid then (e.1, setAdd e.2 cid) :: t
    else e :: cbpAdd t pid cid

/-- Children recorded under a parent id (empty when absent). -/
def cbpGet (cbp : List (String × List String)) (pid : String) : List String :=
  ((cbp.find? (fun e => e.1 = pid)).map (fun e => e.2)).getD []

/-- The buildForest relationship scan: for every parent-child record whose
child exists, attach the child under the first listed parent that exists;
returns the childrenByParent map and the set of attached children. -/
def buildChildMaps (people : List Person) (rels : List Rel) :
    List (String × List String) × List String :=
  rels.foldl (fun st r =>
    match r with
    | .spouse _ _ => st
    | .parentChild childId parents parentId =>
      if (peopleById people childId).isSome then
        match (parentIdsOf parents parentId).find?
            (fun pid => (peopleById people pid).isSome) with
        | some chosen => (cbpAdd st.1 chosen childId, setAdd st.2 childId)
        | none => st
      else st) ([], [])

/-- The root ordering key of the buildForest roots sort: generation
ascending with an absent generation sorting last (the comparator uses
positive infinity there), then lowercased family name, then lowercased
given name. -/
def rootKey (p : Person) : Lex ((Lex (Bool × ℚ)) × (Lex (String × String))) :=
  toLex (toLex (p.generation.isNone, p.generation.getD 0),
    toLex (p.lastName.toLower, p.firstName.toLower))

/-- The roots comparator of buildForest as a total preorder. -/
def rootLe (a b : Person) : Prop := rootKey a ≤ rootKey b

instance : DecidableRel rootLe :=
  fun a b => show Decidable (rootKey a ≤ rootKey b) from inferInstance

/-- The minimum generation over the person list, absent values counting as
positive infinity (the none case). -/
def minGenOf (people : List Person) : Option ℚ :=
  people.foldl (fun acc p =>
    match acc, p.generation with
    | none, g => g
    | some m, none => some m
    | some m, some g => some (min m g)) none

/-- The root list of buildForest: people that are no child's chosen parent,
sorted by the roots comparator; when empty, fall back to the people at the
globally minimal generation. -/
def rootsOf (people : List Person) (rels : List Rel) : List Person :=
  let inChild := (buildChildMaps people rels).2
  let rs := List.insertionSort rootLe
    (people.filter (fun p => ¬ inChild.contains p.id))
  if rs.isEmpty then
    people.filter (fun p =>
      match p.generation, minGenOf people with
      | some g, some m => g = m
      | _, _ => false)
  else rs

/-- The plain object tree buildSubtree produces. -/
inductive PTree where
  | node (id : String) (person : Option Person) (children : List PTree)

/-- Every id mentioned in the childrenByParent map, as a finite set; the
recursion of buildSubtree is bounded by it. -/
def cbpIds (cbp : List (String × List String)) : Finset String :=
  ((cbp.map Prod.fst) ++ (cbp.map Prod.snd).flatten).toFinset

theorem cbpGet_key_mem (cbp : List (String × List String)) (pid : String)
    (h : cbpGet cbp pid ≠ []) : pid ∈ cbpIds cbp := by
  unfold cbpGet at h
  rcases hf : cbp.find? (fun e => e.1 = pid) with _ | e
  · rw [hf] at h
    simp at h
  · have hmem := List.mem_of_find?_eq_some hf
    have hkey := List.find?_some hf
    simp only [decide_eq_true_eq] at hkey
    unfold cbpIds
    rw [List.mem_toFinset, List.mem_append]
    left
    rw [← hkey]
    exact List.mem_map_of_mem Prod.fst hmem

/-- buildSubtree from tree.js: emit a childless leaf when the id is already
on the current path, otherwise recurse into the recorded children carrying
the per-branch visited set. -/
def buildSubtree (people : List Person) (cbp : List (String × List String))
    (id : String) (visited : List String) : PTree :=
  if id ∈ visited then .node id (peopleById people id) []
  else
    .node id (peopleById people id)
      ((cbpGet cbp id).attach.map
        (fun c => buildSubtree people cbp c.1 (id :: visited)))
termination_by (cbpIds cbp \ visited.toFinset).card
decreasing_by
  have hid : id ∈ cbpIds cbp := by
    refine cbpGet_key_mem cbp id ?_
    intro hnil
    rw [hnil] at c
    exact absurd c.2 (List.not_mem_nil c.1)
  apply Finset.card_lt_card
  constructor
  · refine Finset.sdiff_subset_sdiff (le_refl _) ?_
    intro x hx
    rw [List.toFinset_cons]
    exact Finset.mem_insert_of_mem hx
  · intro hsub
    have hin : id ∈ cbpIds cbp \ visited.toFinset := by
      rw [Finset.mem_sdiff]
      refine ⟨hid, ?_⟩
      rw [List.mem_toFinset]
      assumption
    have hin2 := hsub hin
    rw [Finset.mem_sdiff, List.toFinset_cons] at hin2
    exact hin2.2 (Finset.mem_insert_self id _)

/-- The virtual root binding every root subtree, as buildForest returns. -/
def buildForest (people : List Person) (rels : List Rel) : PTree :=
  .node "__root__" none
    ((rootsOf people rels).map
      (fun r => buildSubtree people (buildChildMaps people rels).1 r.id []))

/-- All root-to-leaf identifier paths of a tree. -/
def chains : PTree → List (List String)
  | .node id _ cs =>
    if cs.isEmpty then [[id]]
    else ((cs.attach.map (fun c => chains c.1)).flatten).map
      (fun c => id :: c)
decreasing_by
  simp_wf
  have := List.sizeOf_lt_of_mem c.2
  omega

/-- Depth of a tree (number of nodes on the longest path). -/
def pdepth : PTree → Nat
  | .node _ _ cs => 1 + (cs.attach.map (fun c => pdepth c.1)).foldr max 0
decreasing_by
  simp_wf
  have := List.sizeOf_lt_of_mem c.2
  omega

theorem chains_spec (people : List Person) (cbp : List (String × List String)) :
    ∀ (id : String) (visited : List String),
      ∀ c ∈ chains (buildSubtree people cbp id visited),
        c ≠ [] ∧ c.dropLast.Nodup ∧ ∀ v ∈ c.dropLast, v ∉ visited := by
  intro id0 visited0
  induction id0, visited0 using buildSubtree.induct people cbp with
  | case1 id visited hin =>
    intro c hc
    rw [buildSubtree.eq_def, if_pos hin] at hc
    simp only [chains, List.isEmpty_nil, if_true, List.mem_singleton] at hc
    subst hc
    exact ⟨by simp, by simp, by simp⟩
  | case2 id visited hnin ih =>
    intro c hc
    rw [buildSubtree.eq_def, if_neg hnin] at hc
    rw [chains] at hc
    by_cases hcb : (cbpGet cbp id).attach.map
        (fun c => buildSubtree people cbp c.1 (id :: visited)) = []
    · rw [hcb] at hc
      simp only [List.isEmpty_nil, if_true, List.mem_singleton] at hc
      subst hc
      exact ⟨by simp, by simp, by simp⟩
    · rw [if_neg (by simpa [List.isEmpty_iff] using hcb)] at hc
      obtain ⟨c2, hc2f, hcc⟩ := List.mem_map.mp hc
      obtain ⟨cl, hclm, hc2⟩ := List.mem_flatten.mp hc2f
      obtain ⟨s, _, hcl⟩ := List.mem_map.mp hclm
      obtain ⟨a, _, hsa⟩ := List.mem_map.mp s.2
      subst hcl
      rw [← hsa] at hc2
      obtain ⟨hne, hnd, hnv⟩ := ih a c2 hc2
      subst hcc
      have hdl : (id :: c2).dropLast = id :: c2.dropLast :=
        List.dropLast_cons_of_ne_nil hne
      refine ⟨by simp, ?_, ?_⟩
      · rw [hdl]
        refine List.Nodup.cons ?_ hnd
        intro hid2
        exact hnv id hid2 (by simp)
      · rw [hdl]
        intro v hv
        rcases List.mem_cons.mp hv with rfl | hv2
        · exact hnin
        · intro hvv
          exact hnv v hv2 (by simp [hvv])

theorem foldr_max_le (m : ℕ) : ∀ l : List ℕ, (∀ x ∈ l, x ≤ m) →
    l.foldr max 0 ≤ m := by
  intro l
  induction l with
  | nil => intro _; simp
  | cons x t ih =>
    intro h
    simp only [List.foldr_cons]
    exact max_le (h x (by simp)) (ih (fun y hy => h y (by simp [hy])))

theorem pdepth_spec (people : List Person) (cbp : List (String × List String)) :
    ∀ (id : String) (visited : List String),
      pdepth (buildSubtree people cbp id visited)
        ≤ (cbpIds cbp \ visited.toFinset).card + 1 := by
  intro id0 visited0
  induction id0, visited0 using buildSubtree.induct people cbp with
  | case1 id visited hin =>
    rw [buildSubtree.eq_def, if_pos hin, pdepth]
    simp
  | case2 id visited hnin ih =>
    rw [buildSubtree.eq_def, if_neg hnin, pdepth]
    by_cases hcb : cbpGet cbp id = []
    · rw [hcb]
      simp
    · have hid : id ∈ cbpIds cbp := cbpGet_key_mem cbp id hcb
      have hmem : id ∈ cbpIds cbp \ visited.toFinset := by
        rw [Finset.mem_sdiff, List.mem_toFinset]
        exact ⟨hid, hnin⟩
      have hcard : (cbpIds cbp \ (id :: visited).toFinset).card + 1
          ≤ (cbpIds cbp \ visited.toFinset).card := by
        rw [List.toFinset_cons, Finset.sdiff_insert,
          Finset.card_erase_of_mem hmem]
        have hpos : 0 < (cbpIds cbp \ visited.toFinset).card :=
          Finset.card_pos.mpr ⟨id, hmem⟩
        omega
      have hb : ((((cbpGet cbp id).attach.map
            (fun c => buildSubtree people cbp c.1 (id :: visited))).attach.map
              (fun c => pdepth c.1)).foldr max 0)
          ≤ (cbpIds cbp \ (id :: visited).toFinset).card + 1 := by
        refine foldr_max_le _ _ ?_
        intro x hx
        obtain ⟨s, _, hs⟩ := List.mem_map.mp hx
        obtain ⟨a, _, hsa⟩ := List.mem_map.mp s.2
        rw [← hs, ← hsa]
        exact ih a
      omega

theorem setAdd_mem (l : List String) (x v : String) (h : v ∈ setAdd l x) :
    v ∈ l ∨ v = x := by
  unfold setAdd at h
  split at h
  · exact Or.inl h
  · rcases List.mem_append.mp h with h2 | h2
    · exact Or.inl h2
    · simp only [List.mem_singleton] at h2
      exact Or.inr h2

theorem cbpAdd_mem : ∀ (cbp : List (String × List String)) (p c : String),
    ∀ e2 ∈ cbpAdd cbp p c,
      (e2.1 = p ∨ ∃ e ∈ cbp, e2.1 = e.1) ∧
      (∀ v ∈ e2.2, v = c ∨ ∃ e ∈ cbp, v ∈ e.2) := by
  intro cbp
  induction cbp with
  | nil =>
    intro p c e2 he2
    simp only [cbpAdd, List.mem_singleton] at he2
    subst he2
    refine ⟨Or.inl rfl, ?_⟩
    intro v hv
    simp only [List.mem_singleton] at hv
    exact Or.inl hv
  | cons e t ih =>
    intro p c e2 he2
    simp only [cbpAdd] at he2
    split at he2
    · rcases List.mem_cons.mp he2 with rfl | h2
      · refine ⟨Or.inr ⟨e, by simp, rfl⟩, ?_⟩
        intro v hv
        rcases setAdd_mem e.2 c v hv with h3 | h3
        · exact Or.inr ⟨e, by simp, h3⟩
        · exact Or.inl h3
      · refine ⟨Or.inr ⟨e2, by simp [h2], rfl⟩, ?_⟩
        intro v hv
        exact Or.inr ⟨e2, by simp [h2], hv⟩
    · rcases List.mem_cons.mp he2 with rfl | h2
      · refine ⟨Or.inr ⟨e2, by simp, rfl⟩, ?_⟩
        intro v hv
        exact Or.inr ⟨e2, by simp, hv⟩
      · obtain ⟨hk, hv⟩ := ih p c e2 h2
        constructor
        · rcases hk with hk | ⟨e3, he3, hk⟩
          · exact Or.inl hk
          · exact Or.inr ⟨e3, by simp [he3], hk⟩
        · intro v hvm
          rcases hv v hvm with h3 | ⟨e3, he3, h3⟩
          · exact Or.inl h3
          · exact Or.inr ⟨e3, by simp [he3], h3⟩

theorem buildChildMaps_sound (people : List Person) (rels : List Rel) :
    ∀ e ∈ (buildChildMaps people rels).1,
      (peopleById people e.1).isSome ∧
        ∀ v ∈ e.2, (peopleById people v).isSome := by
  unfold buildChildMaps
  refine foldl_inv _ (fun st : List (String × List String) × List String =>
    ∀ e ∈ st.1, (peopleById people e.1).isSome ∧
      ∀ v ∈ e.2, (peopleById people v).isSome) ?_ rels _ (by intro e he; cases he)
  intro st r hst
  rcases r with _ | ⟨childId, parents, parentId⟩
  · exact hst
  · dsimp only
    split
    · rcases hch : (parentIdsOf parents parentId).find?
          (fun pid => (peopleById people pid).isSome) with _ | chosen
      · exact hst
      · intro e he
        dsimp only at he
        obtain ⟨hk, hv⟩ := cbpAdd_mem st.1 chosen childId e he
        have hcs : (peopleById people chosen).isSome := by
          have := List.find?_some hch
          simpa using this
        constructor
        · rcases hk with hk | ⟨e3, he3, hk⟩
          · rw [hk]; exact hcs
          · rw [hk]; exact (hst e3 he3).1
        · intro v hvm
          rcases hv v hvm with h3 | ⟨e3, he3, h3⟩
          · rw [h3]; assumption
          · exact (hst e3 he3).2 v h3
    · exact hst

theorem peopleById_isSome_mem (people : List Person) (x : String)
    (h : (peopleById people x).isSome) : x ∈ people.map (fun p => p.id) := by
  unfold peopleById at h
  rcases hf : people.reverse.find? (fun p => p.id = x) with _ | p
  · rw [hf] at h
    cases h
  · have hmem := List.mem_of_find?_eq_some hf
    have hkey := List.find?_some hf
    simp only [decide_eq_true_eq] at hkey
    rw [List.mem_reverse] at hmem
    rw [← hkey]
    exact List.mem_map_of_mem (fun p => p.id) hmem

theorem cbpGet_sound (people : List Person) (rels : List Rel)
    (pid cid : String)
    (h : cid ∈ cbpGet (buildChildMaps people rels).1 pid) :
    (peopleById people pid).isSome ∧ (peopleById people cid).isSome := by
  unfold cbpGet at h
  rcases hf : ((buildChildMaps people rels).1).find? (fun e => e.1 = pid)
      with _ | e
  · rw [hf] at h
    cases h
  · rw [hf] at h
    simp only [Option.map_some', Option.getD_some] at h
    have hmem := List.mem_of_find?_eq_some hf
    have hkey := List.find?_some hf
    simp only [decide_eq_true_eq] at hkey
    obtain ⟨h1, h2⟩ := buildChildMaps_sound people rels e hmem
    exact ⟨hkey ▸ h1, h2 cid h⟩

theorem cbpIds_subset (people : List Person) (rels : List Rel) :
    cbpIds (buildChildMaps people rels).1
      ⊆ (people.map (fun p => p.id)).toFinset := by
  intro x hx
  unfold cbpIds at hx
  rw [List.mem_toFinset, List.mem_append] at hx
  rw [List.mem_toFinset]
  rcases hx with hx | hx
  · obtain ⟨e, he, hx2⟩ := List.mem_map.mp hx
    subst hx2
    exact peopleById_isSome_mem people e.1
      (buildChildMaps_sound people rels e he).1
  · rw [List.mem_flatten] at hx
    obtain ⟨l, hl, hx2⟩ := hx
    obtain ⟨e, he, hl2⟩ := List.mem_map.mp hl
    subst hl2
    exact peopleById_isSome_mem people x
      ((buildChildMaps_sound people rels e he).2 x hx2)

/-- Two-person parent cycle used to exercise the cycle guard. -/
def cyclePeople : List Person :=
  [⟨"A", "", "", none, some 0⟩, ⟨"B", "", "", none, some 0⟩]

/-- The cyclic parent-child records: A is B's child and B is A's child. -/
def cycleRels : List Rel :=
  [.parentChild "A" ["B"] none, .parentChild "B" ["A"] none]

theorem cycle_cbp :
    (buildChildMaps cyclePeople cycleRels).1 = [("B", ["A"]), ("A", ["B"])] := by
  decide

theorem cycle_subA2 :
    buildSubtree cyclePeople [("B", ["A"]), ("A", ["B"])] "A" ["B", "A"]
      = .node "A" (some ⟨"A", "", "", none, some 0⟩) [] := by
  rw [buildSubtree.eq_def, if_pos (by decide : "A" ∈ ["B", "A"])]
  rw [show peopleById cyclePeople "A"
    = some ⟨"A", "", "", none, some 0⟩ from by decide]

theorem cycle_subB1 :
    buildSubtree cyclePeople [("B", ["A"]), ("A", ["B"])] "B" ["A"]
      = .node "B" (some ⟨"B", "", "", none, some 0⟩)
          [.node "A" (some ⟨"A", "", "", none, some 0⟩) []] := by
  rw [buildSubtree.eq_def, if_neg (by decide : ¬ "B" ∈ ["A"])]
  rw [show peopleById cyclePeople "B"
    = some ⟨"B", "", "", none, some 0⟩ from by decide]
  rw [show cbpGet [("B", ["A"]), ("A", ["B"])] "B" = ["A"] from by decide]
  simp only [List.attach, List.attachWith, List.pmap, List.map_cons,
    List.map_nil]
  rw [cycle_subA2]

theorem cycle_subA0 :
    buildSubtree cyclePeople [("B", ["A"]), ("A", ["B"])] "A" []
      = .node "A" (some ⟨"A", "", "", none, some 0⟩)
          [.node "B" (some ⟨"B", "", "", none, some 0⟩)
            [.node "A" (some ⟨"A", "", "", none, some 0⟩) []]] := by
  rw [buildSubtree.eq_def, if_neg (by decide : ¬ "A" ∈ ([] : List String))]
  rw [show peopleById cyclePeople "A"
    = some ⟨"A", "", "", none, some 0⟩ from by decide]
  rw [show cbpGet [("B", ["A"]), ("A", ["B"])] "A" = ["B"] from by decide]
  simp only [List.attach, List.attachWith, List.pmap, List.map_cons,
    List.map_nil]
  rw [cycle_subB1]

theorem cycle_subB2 :
    buildSubtree cyclePeople [("B", ["A"]), ("A", ["B"])] "B" ["A", "B"]
      = .node "B" (some ⟨"B", "", "", none, some 0⟩) [] := by
  rw [buildSubtree.eq_def, if_pos (by decide : "B" ∈ ["A", "B"])]
  rw [show peopleById cyclePeople "B"
    = some ⟨"B", "", "", none, some 0⟩ from by decide]

theorem cycle_subA1 :
    buildSubtree cyclePeople [("B", ["A"]), ("A", ["B"])] "A" ["B"]
      = .node "A" (some ⟨"A", "", "", none, some 0⟩)
          [.node "B" (some ⟨"B", "", "", none, some 0⟩) []] := by
  rw [buildSubtree.eq_def, if_neg (by decide : ¬ "A" ∈ ["B"])]
  rw [show peopleById cyclePeople "A"
    = some ⟨"A", "", "", none, some 0⟩ from by decide]
  rw [show cbpGet [("B", ["A"]), ("A", ["B"])] "A" = ["B"] from by decide]
  simp only [List.attach, List.attachWith, List.pmap, List.map_cons,
    List.map_nil]
  rw [cycle_subB2]

theorem cycle_subB0 :
    buildSubtree cyclePeople [("B", ["A"]), ("A", ["B"])] "B" []
      = .node "B" (some ⟨"B", "", "", none, some 0⟩)
          [.node "A" (some ⟨"A", "", "", none, some 0⟩)
            [.node "B" (some ⟨"B", "", "", none, some 0⟩) []]] := by
  rw [buildSubtree.eq_def, if_neg (by decide : ¬ "B" ∈ ([] : List String))]
  rw [show peopleById cyclePeople "B"
    = some ⟨"B", "", "", none, some 0⟩ from by decide]
  rw [show cbpGet [("B", ["A"]), ("A", ["B"])] "B" = ["A"] from by decide]
  simp only [List.attach, List.attachWith, List.pmap, List.map_cons,
    List.map_nil]
  rw [cycle_subA1]

theorem cycle_forest :
    buildForest cyclePeople cycleRels
      = .node "__root__" none
          [.node "A" (some ⟨"A", "", "", none, some 0⟩)
            [.node "B" (some ⟨"B", "", "", none, some 0⟩)
              [.node "A" (some ⟨"A", "", "", none, some 0⟩) []]],
           .node "B" (some ⟨"B", "", "", none, some 0⟩)
            [.node "A" (some ⟨"A", "", "", none, some 0⟩)
              [.node "B" (some ⟨"B", "", "", none, some 0⟩) []]]] := by
  unfold buildForest
  rw [show rootsOf cyclePeople cycleRels
    = [⟨"A", "", "", none, some 0⟩, ⟨"B", "", "", none, some 0⟩] from by decide]
  simp only [cycle_cbp, List.map_cons, List.map_nil]
  rw [cycle_subA0, cycle_subB0]

/-- C7 counterexample: on a two-person parent-child cycle the truncating
leaf repeats an ancestor's identifier, so the output forest has a
root-to-leaf path on which an identifier appears twice. -/
theorem C7_cycle_duplicate_counterexample :
    ∃ c ∈ chains (buildForest cyclePeople cycleRels), ¬ c.Nodup := by
  rw [cycle_forest]
  refine ⟨["__root__", "A", "B", "A"], ?_, by decide⟩
  simp [chains]

/-- C7 amended: forest construction terminates with recursion depth bounded
by the number of distinct person identifiers plus one, and on every
root-to-leaf path of a built subtree all identifiers except possibly the
final (cycle-truncated) leaf are pairwise distinct. -/
theorem C7_cycle_guard_amended (people : List Person) (rels : List Rel)
    (id : String) :
    (∀ c ∈ chains (buildSubtree people (buildChildMaps people rels).1 id []),
      c.dropLast.Nodup) ∧
    pdepth (buildSubtree people (buildChildMaps people rels).1 id [])
      ≤ ((people.map (fun p => p.id)).toFinset).card + 1 := by
  constructor
  · intro c hc
    exact (chains_spec people (buildChildMaps people rels).1 id [] c hc).2.1
  · have h1 := pdepth_spec people (buildChildMaps people rels).1 id []
    have h2 : (cbpIds (buildChildMaps people rels).1 \ ([] : List String).toFinset).card
        ≤ ((people.map (fun p => p.id)).toFinset).card := by
      refine Finset.card_le_card ?_
      intro x hx
      rw [Finset.mem_sdiff] at hx
      exact cbpIds_subset people rels hx.1
    omega

/-- Closed instance of the amended C7 on the cyclic example. -/
theorem C7_cycle_guard_amended_witness :
    (["A", "B", "A"] : List String).dropLast.Nodup ∧
    pdepth (buildSubtree cyclePeople
        (buildChildMaps cyclePeople cycleRels).1 "A" [])
      ≤ ((cyclePeople.map (fun p => p.id)).toFinset).card + 1 := by
  constructor
  · refine (C7_cycle_guard_amended cyclePeople cycleRels "A").1
      ["A", "B", "A"] ?_
    rw [cycle_cbp, cycle_subA0]
    simp [chains]
  · exact (C7_cycle_guard_amended cyclePeople cycleRels "A").2

/-- C6 (forest side, amended): a parent-child record contributes an edge to
the forest's parent map only when both the child and the chosen parent
exist in the person list. -/
theorem C6_forest_drops_unknown_amended (people : List Person)
    (rels : List Rel) (pid cid : String)
    (h : cid ∈ cbpGet (buildChildMaps people rels).1 pid) :
    pid ∈ people.map (fun p => p.id) ∧ cid ∈ people.map (fun p => p.id) := by
  obtain ⟨h1, h2⟩ := cbpGet_sound people rels pid cid h
  exact ⟨peopleById_isSome_mem people pid h1, peopleById_isSome_mem people cid h2⟩

/-- Closed instance of the amended C6 on a concrete parent-child edge. -/
theorem C6_forest_drops_unknown_amended_witness :
    ("A" ∈ cbpGet (buildChildMaps cyclePeople cycleRels).1 "B") ∧
    ("B" ∈ cyclePeople.map (fun p => p.id) ∧
      "A" ∈ cyclePeople.map (fun p => p.id)) :=
  ⟨by decide,
    C6_forest_drops_unknown_amended cyclePeople cycleRels "B" "A" (by decide)⟩

/-- The root ordering the specification claims, word for word: ascending
generation with an absent generation counting as 0, then family name, then
given name, case-insensitively. -/
def specRootKey (p : Person) : Lex (ℚ × (Lex (String × String))) :=
  toLex (p.generation.getD 0, toLex (p.lastName.toLower, p.firstName.toLower))

/-- The ordering relation asserted by the specification for the root list. -/
def specRootLe (a b : Person) : Prop := specRootKey a ≤ specRootKey b

instance : DecidableRel specRootLe :=
  fun a b => show Decidable (specRootKey a ≤ specRootKey b) from inferInstance

/-- C8 counterexample: a person with an absent generation sorts after a
person with generation 1, while the claimed ordering (absent counts as 0)
would put them first; so the produced root order violates the claim. -/
theorem C8_roots_order_counterexample :
    rootsOf [⟨"A", "", "", none, none⟩, ⟨"B", "", "", none, some 1⟩] []
      = [⟨"B", "", "", none, some 1⟩, ⟨"A", "", "", none, none⟩] ∧
    ¬ List.Pairwise specRootLe
      (rootsOf [⟨"A", "", "", none, none⟩, ⟨"B", "", "", none, some 1⟩] []) := by
  constructor
  · decide
  · intro hp
    rw [show rootsOf [⟨"A", "", "", none, none⟩, ⟨"B", "", "", none, some 1⟩] []
      = [⟨"B", "", "", none, some 1⟩, ⟨"A", "", "", none, none⟩] from by decide] at hp
    have := List.rel_of_pairwise_cons hp
      (show (⟨"A", "", "", none, none⟩ : Person)
          ∈ [(⟨"A", "", "", none, none⟩ : Person)] by simp)
    revert this
    decide

/-- C8 amended: when the non-child filter is nonempty (no fallback), the
roots are sorted by ascending generation with an ABSENT generation sorting
last, then lowercased family name, then lowercased given name. -/
theorem C8_roots_sorted_amended (people : List Person) (rels : List Rel)
    (h : people.filter
      (fun p => ¬ (buildChildMaps people rels).2.contains p.id) ≠ []) :
    List.Pairwise rootLe (rootsOf people rels) := by
  unfold rootsOf
  have hne : ¬ (List.insertionSort rootLe (people.filter
      (fun p => ¬ (buildChildMaps people rels).2.contains p.id))).isEmpty = true := by
    rw [List.isEmpty_iff]
    intro hnil
    have hperm := List.perm_insertionSort rootLe (people.filter
      (fun p => ¬ (buildChildMaps people rels).2.contains p.id))
    rw [hnil] at hperm
    exact h (List.Perm.nil_eq hperm).symm
  rw [if_neg hne]
  haveI : IsTotal Person rootLe := ⟨fun a b => le_total (rootKey a) (rootKey b)⟩
  haveI : IsTrans Person rootLe :=
    ⟨fun a b c h1 h2 => le_trans (a := rootKey a) h1 h2⟩
  exact List.sorted_insertionSort rootLe _

/-- Closed instance of the amended C8 on a concrete person list. -/
theorem C8_roots_sorted_amended_witness :
    List.Pairwise rootLe
      (rootsOf [⟨"A", "", "", none, none⟩, ⟨"B", "", "", none, some 1⟩] []) :=
  C8_roots_sorted_amended
    [⟨"A", "", "", none, none⟩, ⟨"B", "", "", none, some 1⟩] [] (by decide)

/-- Lexicographic order on character lists by code point, the comparison
the JS default array sort applies to strings. -/
def charsLe : List Char → List Char → Bool
  | [], _ => true
  | _ :: _, [] => false
  | a :: as, b :: bs =>
    if a.val.toNat < b.val.toNat then true
    else if b.val.toNat < a.val.toNat then false
    else charsLe as bs

/-- String comparison by code points. -/
def strLe (a b : String) : Bool := charsLe a.data b.data

/-- The order-independent pair key of tree.js (two-element array sort then
join with a bar). -/
def hubKey (a b : String) : String :=
  if strLe a b then a ++ "|" ++ b else b ++ "|" ++ a

/-- Association-list lookup returning the stored value. -/
def alGetL (l : List (String × List String)) (k : String) :
    Option (List String) :=
  (l.find? (fun e => e.1 = k)).map (fun e => e.2)

/-- The spouse key set of buildIndexes, in record order. -/
def spouseKeysOf (rels : List Rel) : List String :=
  rels.filterMap (fun r => match r with
    | .spouse a b => some (hubKey a b)
    | _ => none)

/-- Ensure a child key exists in the child-to-parents map, as the JS
childParents.set(child, new Set()) guarded by has does. -/
def cpEnsure (cp : List (String × List String)) (c : String) :
    List (String × List String) :=
  if (cp.find? (fun e => e.1 = c)).isSome then cp else cp ++ [(c, [])]

/-- The child-to-declared-parents map of buildIndexes: every parent of
every parent-child record counts, not only the chosen structural parent. -/
def childParentsOf (rels : List Rel) : List (String × List String) :=
  rels.foldl (fun cp r =>
    match r with
    | .spouse _ _ => cp
    | .parentChild c parents parentId =>
      if c = "" then cp
      else
        let cp1 := cpEnsure cp c
        if parents.length ≠ 0 then
          parents.foldl (fun acc p => cbpAdd acc c p) cp1
        else
          match parentId with
          | some p => if p ≠ "" then cbpAdd cp1 c p else cp1
          | none => cp1) []

/-- One undirected link of buildAdjacency, skipping falsy endpoints. -/
def link (adj : List (String × List String)) (u v : String) :
    List (String × List String) :=
  if u = "" ∨ v = "" then adj else cbpAdd (cbpAdd adj u v) v u

/-- The kinship search graph of buildAdjacency: every spouse pair and every
child-to-declared-parent pair, with no existence check against the person
list. -/
def buildAdjacency (rels : List Rel) : List (String × List String) :=
  rels.foldl (fun adj r =>
    match r with
    | .spouse a b => link adj a b
    | .parentChild c parents parentId =>
      if c = "" then adj
      else if parents.length ≠ 0 then
        parents.foldl (fun acc p => link acc p c) adj
      else
        match parentId with
        | some p => link adj p c
        | none => adj) []

/-- Lookup in the BFS predecessor map (first write wins, matching the
prev.has guard before prev.set). -/
def alGetP (prev : List (String × Option String)) (k : String) :
    Option (Option String) :=
  (prev.find? (fun e => e.1 = k)).map (fun e => e.2)

/-- The path reconstruction loop of bfsPath: push the cursor, then follow
predecessor pointers while they are truthy. -/
def traceBack (prev : List (String × Option String)) :
    Nat → String → List String
  | 0, _ => []
  | fuel + 1, cur =>
    cur :: (match alGetP prev cur with
      | some (some p) => if p ≠ "" then traceBack prev fuel p else []
      | _ => [])

/-- The neighbor scan of one dequeued vertex: discover unseen neighbors,
returning early with the reconstructed path when the goal is found. -/
def bfsScan (goal u : String) :
    List String → List (String × Option String) → List String →
      Except (List String) (List (String × Option String) × List String)
  | [], prev, q => .ok (prev, q)
  | v :: vs, prev, q =>
    if (alGetP prev v).isSome then bfsScan goal u vs prev q
    else
      let prev2 := prev ++ [(v, some u)]
      if v = goal then
        .error ((v :: traceBack prev2 prev2.length u).reverse)
      else bfsScan goal u vs prev2 (q ++ [v])

/-- The BFS while loop, indexed by fuel (the loop of tree.js is unbounded;
a later lemma shows the chosen fuel never runs out). -/
def bfsLoop (adj : List (String × List String)) (goal : String) :
    Nat → List String → List (String × Option String) → Option (List String)
  | 0, _, _ => none
  | _ + 1, [], _ => none
  | fuel + 1, u :: q, prev =>
    match bfsScan goal u (cbpGet adj u) prev q with
    | .error path => some path
    | .ok (prev2, q2) => bfsLoop adj goal fuel q2 prev2

/-- Fuel that always outlasts the BFS: one unit per possible dequeue. -/
def bfsFuel (adj : List (String × List String)) : Nat :=
  adj.length + (adj.map (fun e => e.2.length)).sum + 2

/-- bfsPath from tree.js: trivial path when start equals goal, else FIFO
breadth-first search recording first-discovered predecessors. -/
def bfsPath (start goal : String) (adj : List (String × List String)) :
    Option (List String) :=
  if start = goal then some [start]
  else bfsLoop adj goal (bfsFuel adj) [start] [(start, none)]

/-- shareParent from computeKinshipLabel. -/
def shareParent (cp : List (String × List String)) (u v : String) : Bool :=
  match alGetL cp u, alGetL cp v with
  | some pu, some pv => pu.any (fun p => pv.contains p)
  | _, _ => false

/-- Spouse test against the spouse key set. -/
def isSpouse (sk : List String) (u v : String) : Bool :=
  sk.contains (hubKey u v)

/-- isParentOf from computeKinshipLabel. -/
def isParentOf (cp : List (String × List String)) (u v : String) : Bool :=
  match alGetL cp v with
  | some pv => pv.contains u
  | none => false

/-- Lookup in a distance map. -/
def alGetN (l : List (String × Nat)) (k : String) : Option Nat :=
  (l.find? (fun e => e.1 = k)).map (fun e => e.2)

/-- The BFS loop of ancestorsMap, fuel-indexed: walk up declared parents
recording the first-assigned generational distance. -/
def ancLoop (cp : List (String × List String)) :
    Nat → List (String × Nat) → List String → List (String × Nat) →
      List (String × Nat)
  | 0, _, _, m => m
  | _ + 1, [], _, m => m
  | fuel + 1, (id, d) :: q, seen, m =>
    match alGetL cp id with
    | none => ancLoop cp fuel q seen m
    | some parents =>
      let st := parents.foldl
        (fun (acc : List (String × Nat) × List String × List (String × Nat)) p =>
          let m1 := if (acc.1.find? (fun e => e.1 = p)).isSome then acc.1
            else acc.1 ++ [(p, d + 1)]
          if acc.2.1.contains p then (m1, acc.2.1, acc.2.2)
          else (m1, acc.2.1 ++ [p], acc.2.2 ++ [(p, d + 1)]))
        (m, seen, q)
      ancLoop cp fuel st.2.2 st.2.1 st.1

/-- Fuel for ancestorsMap. -/
def ancFuel (cp : List (String × List String)) : Nat :=
  cp.length + (cp.map (fun e => e.2.length)).sum + 2

/-- ancestorsMap from tree.js: BFS-measured generational distance to every
proper ancestor (the start itself is never given distance 0). -/
def ancestorsMap (cp : List (String × List String)) (start : String) :
    List (String × Nat) :=
  ancLoop cp (ancFuel cp) [(start, 0)] [start] []

/-- The nearest-common-ancestor fold: first entry of the a-side ancestor
map minimizing the summed distance, ties broken by first encounter. -/
def bestCommon (ancA ancB : List (String × Nat)) :
    Option (String × Nat × Nat) :=
  ancA.foldl (fun best e =>
    match alGetN ancB e.1 with
    | some dB =>
      match best with
      | none => some (e.1, e.2, dB)
      | some b => if e.2 + dB < b.2.1 + b.2.2 then some (e.1, e.2, dB) else b
    | none => best) none

/-- Any hop of the path crossing a spouse key. -/
def viaMarriage (sk : List String) (path : List String) : Bool :=
  (path.zip path.tail).any (fun p => sk.contains (hubKey p.1 p.2))

/-- The ordinal names used for cousin degrees. -/
def ordinal (n : Nat) : String :=
  if n = 1 then "first" else if n = 2 then "second"
  else if n = 3 then "third" else if n = 4 then "fourth"
  else if n = 5 then "fifth" else if n = 6 then "sixth"
  else if n = 7 then "seventh" else if n = 8 then "eighth"
  else if n = 9 then "ninth" else if n = 10 then "tenth"
  else toString n ++ "th"

/-- The gender tag of a person found by id. -/
def genderOf (people : List Person) (x : String) : Option String :=
  (peopleById people x).bind (fun p => p.gender)

/-- The gendered sibling-in-law label (the code always uses the first
endpoint's gender here). -/
def siblingInLawLabel (g : Option String) : String :=
  if g = some "F" then "sister-in-law"
  else if g = some "M" then "brother-in-law"
  else "sibling-in-law"

/-- The gendered parent-in-law label. -/
def parentInLawLabel (g : Option String) : String :=
  if g = some "F" then "mother-in-law"
  else if g = some "M" then "father-in-law"
  else "parent-in-law"

/-- The via-marriage suffix. -/
def viaSuffix (b : Bool) (s : String) : String :=
  if b then s ++ " (via marriage)" else s

/-- computeKinshipLabel from tree.js: in-law checks first, then the
nearest-common-ancestor classification. -/
def computeKinshipLabel (people : List Person)
    (cp : List (String × List String)) (sk : List String)
    (pathIds : List String) : String :=
  if pathIds.length < 2 then ""
  else
    let a := pathIds.headD ""
    let b := (pathIds.getLast?).getD ""
    let a1 := pathIds.getD 1 ""
    let bm1 := pathIds.getD (pathIds.length - 2) ""
    if 3 ≤ pathIds.length ∧
        ((isSpouse sk a a1 ∧ shareParent cp a1 b) ∨
          (isSpouse sk b bm1 ∧ shareParent cp bm1 a)) then
      siblingInLawLabel (genderOf people a)
    else if 3 ≤ pathIds.length ∧ isSpouse sk a a1 ∧ isParentOf cp b a1 then
      parentInLawLabel (genderOf people b)
    else if 3 ≤ pathIds.length ∧ isSpouse sk b bm1 ∧ isParentOf cp a bm1 then
      parentInLawLabel (genderOf people a)
    else
      let via := viaMarriage sk pathIds
      match bestCommon (ancestorsMap cp a) (ancestorsMap cp b) with
      | some best =>
        if best.2.1 = 0 ∨ best.2.2 = 0 then
          let up := if best.2.1 = 0 then best.2.2 else best.2.1
          viaSuffix via
            (if up = 1 then (if best.2.1 = 0 then "child" else "parent")
              else if up = 2 then
                (if best.2.1 = 0 then "grandchild" else "grandparent")
              else (toString (up - 2) ++ "x "
                ++ (if best.2.1 = 0 then "great-grandchild"
                    else "great-grandparent")))
        else if best.2.1 = 1 ∧ best.2.2 = 1 then
          viaSuffix via "siblings"
        else if 1 ≤ best.2.1 ∧ 1 ≤ best.2.2 then
          viaSuffix via (ordinal (min best.2.1 best.2.2 - 1) ++ " cousin"
            ++ (if best.2.1 - best.2.2 + (best.2.2 - best.2.1) = 1
              then " once removed"
              else if 1 < best.2.1 - best.2.2 + (best.2.2 - best.2.1)
                then " " ++ toString (best.2.1 - best.2.2 + (best.2.2 - best.2.1))
                  ++ " times removed"
                else ""))
        else viaSuffix via "related"
      | none => viaSuffix via "related"

/-- The compare action: BFS path between the two selections, then the
kinship label computed on it. -/
def compareLabel (people : List Person) (rels : List Rel) (s g : String) :
    Option String :=
  (bfsPath s g (buildAdjacency rels)).map
    (computeKinshipLabel people (childParentsOf rels) (spouseKeysOf rels))

/-- A child and its parent, the smallest direct-lineage pair. -/
def c4People : List Person :=
  [⟨"C", "", "", none, none⟩, ⟨"P", "", "", none, none⟩]

/-- The single parent-child record linking them. -/
def c4Rels : List Rel := [Rel.parentChild "C" ["P"] none]

/-- C4: comparing a child with its parent is claimed to label the pair
"child"; but ancestorsMap never assigns distance zero (the start vertex is
never inserted into its own ancestor map), so no common-ancestor entry has
a zero distance, the direct-lineage branch is unreachable, and the code
falls through to the generic "related" label. -/
theorem C4_direct_lineage_dead :
    compareLabel c4People c4Rels "C" "P" = some "related" ∧
      "related" ≠ "child" := by
  exact ⟨by decide, by decide⟩

/-- Two known people joined only through an identifier absent from the
person list. -/
def c6People : List Person :=
  [⟨"A", "", "", none, none⟩, ⟨"B", "", "", none, none⟩]

/-- Spouse records referencing the unknown identifier X. -/
def c6Rels : List Rel := [Rel.spouse "A" "X", Rel.spouse "X" "B"]

/-- C6 counterexample: buildAdjacency performs no existence check against
the person list, so the unknown identifier X becomes a graph vertex and
the compare path passes through it. -/
theorem C6_unknown_id_in_path_counterexample :
    bfsPath "A" "B" (buildAdjacency c6Rels) = some ["A", "X", "B"] ∧
      "X" ∉ c6People.map Person.id := by
  exact ⟨by decide, by decide⟩

/-- A man A and a woman B where B's spouse M shares a parent P with A:
the sibling-in-law pattern matches on the last two hops of the path. -/
def c9People : List Person :=
  [⟨"A", "", "", some "M", none⟩, ⟨"P", "", "", none, none⟩,
    ⟨"M", "", "", none, none⟩, ⟨"B", "", "", some "F", none⟩]

/-- A and M are children of P; M and B are spouses. -/
def c9Rels : List Rel :=
  [Rel.parentChild "A" ["P"] none, Rel.parentChild "M" ["P"] none,
    Rel.spouse "M" "B"]

/-- C9 counterexample: only the last-two-hops sibling-in-law condition
fires, whose nearer endpoint is B with gender "F", yet the label is
"brother-in-law" — the code always genders the label by the first
endpoint. -/
theorem C9_gender_counterexample :
    compareLabel c9People c9Rels "A" "B" = some "brother-in-law" ∧
      genderOf c9People "B" = some "F" := by
  exact ⟨by decide, by decide⟩

/-- C9 amended: whenever either sibling-in-law condition holds on a path
of length at least three, the gendered label is chosen from the FIRST
endpoint's gender, regardless of which side of the path matched. -/
theorem C9_sibling_in_law_first_gender_amended
    (people : List Person) (cp : List (String × List String))
    (sk : List String) (pathIds : List String)
    (h3 : 3 ≤ pathIds.length)
    (hc : (isSpouse sk (pathIds.headD "") (pathIds.getD 1 "") ∧
            shareParent cp (pathIds.getD 1 "") ((pathIds.getLast?).getD "")) ∨
          (isSpouse sk ((pathIds.getLast?).getD "")
              (pathIds.getD (pathIds.length - 2) "") ∧
            shareParent cp (pathIds.getD (pathIds.length - 2) "")
              (pathIds.headD ""))) :
    computeKinshipLabel people cp sk pathIds =
      siblingInLawLabel (genderOf people (pathIds.headD "")) := by
  have h2 : ¬ pathIds.length < 2 := by omega
  simp only [computeKinshipLabel]
  rw [if_neg h2, if_pos ⟨h3, hc⟩]

/-- C9 amended, witnessed on the concrete family where only the
last-two-hops condition holds. -/
theorem C9_sibling_in_law_first_gender_amended_witness :
    computeKinshipLabel c9People (childParentsOf c9Rels)
        (spouseKeysOf c9Rels) ["A", "P", "M", "B"] =
      siblingInLawLabel (genderOf c9People "A") :=
  C9_sibling_in_law_first_gender_amended c9People (childParentsOf c9Rels)
    (spouseKeysOf c9Rels) ["A", "P", "M", "B"] (by decide) (by decide)

/-- A laid-out node as the vertical pipeline sees it: the d3 node's datum
person and its mutable y. The passes of tree.js 172-272 never read x when
writing y (the sibling sort by x only permutes x assignments), so the
vertical pipeline is embedded on the y projection alone. -/
structure YNode where
  id : String
  person : Option Person
  y : ℚ
deriving DecidableEq

/-- genOf from createTreeView: the numeric generation, 0 when the person
or the generation is missing or non-numeric. -/
def genOf (p : Option Person) : ℚ :=
  match p with
  | none => 0
  | some q => match q.generation with
    | some g => g
    | none => 0

/-- The generation snap (tree.js 176-178): every node's y is overwritten
by generation times gapY. -/
def genSnap (gapY : ℚ) (ns : List YNode) : List YNode :=
  ns.map (fun n => { n with y := genOf n.person * gapY })

/-- Update the first node carrying an id. -/
def updFirst : List YNode → String → (YNode → YNode) → List YNode
  | [], _, _ => []
  | n :: ns, x, f => if n.id = x then f n :: ns else n :: updFirst ns x f

/-- Update the last node carrying an id — the one the byIdTmp Map resolves
to, since a Map built from pairs keeps the last binding per key. -/
def updLast (ns : List YNode) (x : String) (f : YNode → YNode) :
    List YNode :=
  (updFirst ns.reverse x f).reverse

/-- Lookup through byIdTmp: the last node with the id. -/
def byId (ns : List YNode) (x : String) : Option YNode :=
  ns.reverse.find? (fun n => n.id = x)

/-- One spouse snap (tree.js 202-222, y part): both spouses of a record
whose endpoints are laid out get y = round of the mean generation, times
gapY. -/
def spouseStep (gapY : ℚ) (ns : List YNode) (a b : String) : List YNode :=
  match byId ns a, byId ns b with
  | some na, some nb =>
    let gy := jsRound ((genOf na.person + genOf nb.person) / 2) * gapY
    updLast (updLast ns a (fun n => { n with y := gy })) b
      (fun n => { n with y := gy })
  | _, _ => ns

/-- The spouse pass over all records in order. -/
def spouseSnaps (gapY : ℚ) (rels : List Rel) (ns : List YNode) :
    List YNode :=
  rels.foldl (fun ns r =>
    match r with
    | .spouse a b => spouseStep gapY ns a b
    | _ => ns) ns

/-- Push a child into a sibling group, creating the group with its
captured row (parents' mean y plus gapY) on first sight of the key. -/
def grpPush (groups : List (String × ℚ × List String)) (key : String)
    (gy : ℚ) (c : String) : List (String × ℚ × List String) :=
  if (groups.find? (fun g => g.1 = key)).isSome then
    groups.map (fun g =>
      if g.1 = key then (g.1, g.2.1, g.2.2 ++ [c]) else g)
  else groups ++ [(key, gy, [c])]

/-- The declared parents of a record resolved against the laid-out nodes
(tree.js 233-240). -/
def resolvedParents (ns : List YNode) (parents : List String)
    (parentId : Option String) : List YNode :=
  if parents.length ≠ 0 then parents.filterMap (byId ns)
  else match parentId with
    | some p => if p ≠ "" then
        (match byId ns p with | some n => [n] | none => [])
      else []
    | none => []

/-- The sibling-group build (tree.js 226-253, y part): group key from the
sorted parent ids, captured group row from the parents' mean y. -/
def buildGroups (gapY : ℚ) (rels : List Rel) (ns : List YNode) :
    List (String × ℚ × List String) :=
  rels.foldl (fun groups r =>
    match r with
    | .spouse _ _ => groups
    | .parentChild c parents parentId =>
      match byId ns c with
      | none => groups
      | some _ =>
        let ps := resolvedParents ns parents parentId
        if ps.length = 0 then groups
        else
          let key0 := String.intercalate "|"
            (List.insertionSort (fun a b => strLe a b) (ps.map (fun p => p.id)))
          let key := if key0 = "" then
              "__" ++ (match parentId with
                | some p => if p ≠ "" then p else "none"
                | none => "none") ++ "__"
            else key0
          let parentY := (ps.map (fun p => p.y)).sum / (ps.length : ℚ)
          grpPush groups key (parentY + gapY) c) []

/-- The sibling-group apply (tree.js 256-272, y part): every child of a
group is snapped to the group's captured row. -/
def applyGroups (ns : List YNode) (groups : List (String × ℚ × List String)) :
    List YNode :=
  groups.foldl (fun ns g =>
    g.2.2.foldl (fun ns cid =>
      updLast ns cid (fun n => { n with y := g.2.1 })) ns) ns

/-- The whole vertical pipeline: generation snap, spouse snap, sibling
snap. -/
def layoutY (gapY : ℚ) (rels : List Rel) (ns : List YNode) : List YNode :=
  let ns2 := spouseSnaps gapY rels (genSnap gapY ns)
  applyGroups ns2 (buildGroups gapY rels ns2)

/-- Membership-restricted foldl invariant. -/
theorem foldl_inv_mem {α β : Type} (step : β → α → β) (Inv : β → Prop)
    (l : List α) (hstep : ∀ b, ∀ a ∈ l, Inv b → Inv (step b a)) :
    ∀ b, Inv b → Inv (l.foldl step b) := by
  induction l with
  | nil => intro b hb; exact hb
  | cons a t ih =>
    intro b hb
    exact ih (fun b a ha hbb => hstep b a (List.mem_cons_of_mem _ ha) hbb)
      (step b a) (hstep b a (List.mem_cons_self _ _) hb)

theorem updFirst_mem {ns : List YNode} {a : String} {f : YNode → YNode}
    {n : YNode} (h : n ∈ updFirst ns a f) :
    n ∈ ns ∨ ∃ m ∈ ns, m.id = a ∧ n = f m := by
  induction ns with
  | nil => simp [updFirst] at h
  | cons hd tl ih =>
    simp only [updFirst] at h
    by_cases hid : hd.id = a
    · rw [if_pos hid] at h
      rcases List.mem_cons.1 h with h1 | h1
      · exact Or.inr ⟨hd, List.mem_cons_self _ _, hid, h1⟩
      · exact Or.inl (List.mem_cons_of_mem _ h1)
    · rw [if_neg hid] at h
      rcases List.mem_cons.1 h with h1 | h1
      · exact Or.inl (h1 ▸ List.mem_cons_self _ _)
      · rcases ih h1 with h2 | ⟨m, hm, hma, hnm⟩
        · exact Or.inl (List.mem_cons_of_mem _ h2)
        · exact Or.inr ⟨m, List.mem_cons_of_mem _ hm, hma, hnm⟩

theorem updLast_mem {ns : List YNode} {a : String} {f : YNode → YNode}
    {n : YNode} (h : n ∈ updLast ns a f) :
    n ∈ ns ∨ ∃ m ∈ ns, m.id = a ∧ n = f m := by
  unfold updLast at h
  rw [List.mem_reverse] at h
  rcases updFirst_mem h with h1 | ⟨m, hm, hma, hnm⟩
  · exact Or.inl (List.mem_reverse.1 h1)
  · exact Or.inr ⟨m, List.mem_reverse.1 hm, hma, hnm⟩

/-- A node id untouched by a record: not a spouse endpoint, not a child. -/
def yUntouched (x : String) : Rel → Bool
  | .spouse a b => !(x == a) && !(x == b)
  | .parentChild c _ _ => !(x == c)

theorem inv_updLast {x : String} {gapY : ℚ} {ns : List YNode} {a : String}
    {gy : ℚ} (ha : a ≠ x)
    (h : ∀ n ∈ ns, n.id = x → n.y = genOf n.person * gapY) :
    ∀ n ∈ updLast ns a (fun n => { n with y := gy }),
      n.id = x → n.y = genOf n.person * gapY := by
  intro n hn hid
  rcases updLast_mem hn with h1 | ⟨m, _, hma, rfl⟩
  · exact h n h1 hid
  · exact absurd (hma ▸ hid) ha

theorem grpPush_mem {groups : List (String × ℚ × List String)} {key : String}
    {gy : ℚ} {c : String} {g : String × ℚ × List String} {cid : String}
    (hg : g ∈ grpPush groups key gy c) (hc : cid ∈ g.2.2) :
    (∃ g0 ∈ groups, cid ∈ g0.2.2) ∨ cid = c := by
  unfold grpPush at hg
  split at hg
  · rcases List.mem_map.1 hg with ⟨g0, hg0, rfl⟩
    by_cases hk : g0.1 = key
    · rw [if_pos hk] at hc
      rcases List.mem_append.1 hc with h1 | h1
      · exact Or.inl ⟨g0, hg0, h1⟩
      · exact Or.inr (List.mem_singleton.1 h1)
    · rw [if_neg hk] at hc
      exact Or.inl ⟨g0, hg0, hc⟩
  · rcases List.mem_append.1 hg with h1 | h1
    · exact Or.inl ⟨g, h1, hc⟩
    · rw [List.mem_singleton.1 h1] at hc
      exact Or.inr (List.mem_singleton.1 hc)

theorem buildGroups_child {gapY : ℚ} {rels : List Rel} {ns : List YNode} :
    ∀ g ∈ buildGroups gapY rels ns, ∀ cid ∈ g.2.2,
      ∃ ps pid, Rel.parentChild cid ps pid ∈ rels := by
  unfold buildGroups
  refine foldl_inv_mem _
    (fun groups : List (String × ℚ × List String) =>
      ∀ g ∈ groups, ∀ cid ∈ g.2.2,
        ∃ ps pid, Rel.parentChild cid ps pid ∈ rels) _ ?_ [] (by simp)
  intro groups r hr hinv g hg cid hc
  match r with
  | .spouse a b => exact hinv g hg cid hc
  | .parentChild c parents parentId =>
    dsimp only at hg
    rcases hbi : byId ns c with _ | nc
    · rw [hbi] at hg
      exact hinv g hg cid hc
    · rw [hbi] at hg
      by_cases hps : (resolvedParents ns parents parentId).length = 0
      · rw [if_pos hps] at hg
        exact hinv g hg cid hc
      · rw [if_neg hps] at hg
        rcases grpPush_mem hg hc with ⟨g0, hg0, hc0⟩ | rfl
        · exact hinv g0 hg0 cid hc0
        · exact ⟨parents, parentId, hr⟩

/-- C3 amended: a node whose id is never a spouse endpoint nor a child of
any relationship record keeps the generation snap: its final vertical
coordinate is its generation (0 when absent) times gapY. -/
theorem C3_y_generation_amended (gapY : ℚ) (rels : List Rel)
    (ns : List YNode) (x : String)
    (hx : ∀ r ∈ rels, yUntouched x r = true) :
    ∀ n ∈ layoutY gapY rels ns, n.id = x → n.y = genOf n.person * gapY := by
  have hgen : ∀ n ∈ genSnap gapY ns, n.id = x → n.y = genOf n.person * gapY := by
    intro n hn _
    rcases List.mem_map.1 hn with ⟨m, _, rfl⟩
    rfl
  have hsp : ∀ n ∈ spouseSnaps gapY rels (genSnap gapY ns),
      n.id = x → n.y = genOf n.person * gapY := by
    unfold spouseSnaps
    refine foldl_inv_mem _
      (fun l : List YNode => ∀ n ∈ l, n.id = x → n.y = genOf n.person * gapY)
      _ ?_ _ hgen
    intro l r hr hinv
    match r with
    | .parentChild c parents parentId => exact hinv
    | .spouse a b =>
      have hab := hx _ hr
      simp only [yUntouched, Bool.and_eq_true, Bool.not_eq_true',
        beq_eq_false_iff_ne] at hab
      dsimp only [spouseStep]
      rcases byId l a with _ | na
      · exact hinv
      · rcases byId l b with _ | nb
        · exact hinv
        · exact inv_updLast (Ne.symm hab.2) (inv_updLast (Ne.symm hab.1) hinv)
  unfold layoutY applyGroups
  refine foldl_inv_mem _
    (fun l : List YNode => ∀ n ∈ l, n.id = x → n.y = genOf n.person * gapY)
    _ ?_ _ hsp
  intro l g hg hinv
  refine foldl_inv_mem _
    (fun l : List YNode => ∀ n ∈ l, n.id = x → n.y = genOf n.person * gapY)
    _ ?_ _ hinv
  intro l2 cid hcid hinv2
  obtain ⟨ps, pid, hrel⟩ := buildGroups_child g hg cid hcid
  have hc := hx _ hrel
  simp only [yUntouched, Bool.not_eq_true', beq_eq_false_iff_ne] at hc
  exact inv_updLast (Ne.symm hc) hinv2

/-- The two-generation spouse pair refuting the row-alignment claim. -/
def c3Nodes : List YNode :=
  [⟨"a", some ⟨"a", "", "", none, some 0⟩, 0⟩,
    ⟨"b", some ⟨"b", "", "", none, some 2⟩, 0⟩]

/-- The spouse record joining them. -/
def c3Rels : List Rel := [Rel.spouse "a" "b"]

theorem c3_eval : layoutY 385 c3Rels c3Nodes =
    [⟨"a", some ⟨"a", "", "", none, some 0⟩, 385⟩,
      ⟨"b", some ⟨"b", "", "", none, some 2⟩, 385⟩] := by
  simp [layoutY, spouseSnaps, genSnap, spouseStep, byId, updLast, updFirst,
    applyGroups, buildGroups, c3Rels, c3Nodes, genOf, jsRound]
  norm_num [Int.floor_eq_iff]

/-- C3 counterexample: the spouse snap moves both spouses to the rounded
mean generation row, so the generation-0 spouse of a generation-2 person
ends at y = 385 instead of 0: y is not generation times gapY for every
laid-out node. -/
theorem C3_y_not_generation_counterexample :
    ∃ n ∈ layoutY 385 c3Rels c3Nodes, ¬ n.y = genOf n.person * 385 := by
  refine ⟨⟨"a", some ⟨"a", "", "", none, some 0⟩, 385⟩, ?_, ?_⟩
  · rw [c3_eval]
    simp
  · simp [genOf]

/-- The pair plus an untouched third person of generation 1. -/
def c3NodesW : List YNode :=
  c3Nodes ++ [⟨"c", some ⟨"c", "", "", none, some 1⟩, 7⟩]

/-- C3 amended, witnessed: the node "c", referenced by no record, keeps
y = 1 times 385. -/
theorem C3_y_generation_amended_witness :
    (∀ r ∈ c3Rels, yUntouched "c" r = true) ∧
      (∀ n ∈ layoutY 385 c3Rels c3NodesW,
        n.id = "c" → n.y = genOf n.person * 385) :=
  ⟨by decide, C3_y_generation_amended 385 c3Rels c3NodesW "c" (by decide)⟩

/-- Membership in the declared parent set of a parent-child record: the
parents array when nonempty, else the single parentId. -/
def declaredParentB (ps : List String) (pid : Option String) (p : String) :
    Bool :=
  if ps.length ≠ 0 then ps.contains p else pid == some p

/-- Whether a record contributes the undirected edge u-v, following the
claim's wording: every spouse pair, and each child with every one of its
declared parents. -/
def edgeOfRel (u v : String) : Rel → Bool
  | .spouse a b => (u == a && v == b) || (u == b && v == a)
  | .parentChild c ps pid =>
    (u == c && declaredParentB ps pid v) || (v == c && declaredParentB ps pid u)

/-- The kinship graph as the specification words it (an identifier must be
present — the empty string stands for an absent reference). This is the
spec-side definition the code's buildAdjacency is compared against. -/
def specEdge (rels : List Rel) (u v : String) : Prop :=
  u ≠ "" ∧ v ≠ "" ∧ ∃ r ∈ rels, edgeOfRel u v r = true

instance (rels : List Rel) (u v : String) : Decidable (specEdge rels u v) :=
  inferInstanceAs (Decidable
    (u ≠ "" ∧ v ≠ "" ∧ ∃ r ∈ rels, edgeOfRel u v r = true))

/-- A path from s to g in the spec graph. -/
def specPath (rels : List Rel) (s g : String) (p : List String) : Prop :=
  p.head? = some s ∧ p.getLast? = some g ∧ List.Chain' (specEdge rels) p

instance (rels : List Rel) (s g : String) (p : List String) :
    Decidable (specPath rels s g p) :=
  inferInstanceAs (Decidable (p.head? = some s ∧ p.getLast? = some g ∧
    List.Chain' (specEdge rels) p))

/-- Directed adjacency in the code's graph. -/
def Edge (adj : List (String × List String)) (u v : String) : Prop :=
  v ∈ cbpGet adj u

theorem setAdd_mem_iff (l : List String) (x v : String) :
    v ∈ setAdd l x ↔ v ∈ l ∨ v = x := by
  unfold setAdd
  by_cases h : l.contains x
  · rw [if_pos h]
    have hx : x ∈ l := by simpa using h
    constructor
    · exact Or.inl
    · rintro (h2 | rfl)
      · exact h2
      · exact hx
  · rw [if_neg h]
    simp

theorem cbpGet_cons (e : String × List String)
    (t : List (String × List String)) (k : String) :
    cbpGet (e :: t) k = if e.1 = k then e.2 else cbpGet t k := by
  unfold cbpGet
  by_cases h : e.1 = k
  · simp [List.find?, h]
  · simp [List.find?, h]

theorem cbpGet_cbpAdd (adj : List (String × List String)) (p c k : String) :
    cbpGet (cbpAdd adj p c) k =
      if k = p then setAdd (cbpGet adj p) c else cbpGet adj k := by
  induction adj with
  | nil =>
    by_cases hk : k = p
    · simp [cbpAdd, cbpGet, hk, setAdd]
    · simp [cbpAdd, cbpGet, hk, List.find?, Ne.symm hk]
  | cons e t ih =>
    by_cases hep : e.1 = p
    · have hstep : cbpAdd (e :: t) p c = (e.1, setAdd e.2 c) :: t := by
        simp [cbpAdd, hep]
      rw [hstep]
      simp only [cbpGet_cons, hep]
      by_cases hk : k = p
      · simp [hk]
      · have hpk : ¬ p = k := fun h2 => hk h2.symm
        simp [hk, hpk]
    · have hstep : cbpAdd (e :: t) p c = e :: cbpAdd t p c := by
        simp [cbpAdd, hep]
      rw [hstep]
      simp only [cbpGet_cons, ih, hep, if_false]
      by_cases hk : e.1 = k
      · have hkp : ¬ k = p := fun h => hep (hk.trans h)
        simp [hk, hkp]
      · simp [hk]

theorem edge_link (adj : List (String × List String)) (a b u v : String) :
    Edge (link adj a b) u v ↔
      Edge adj u v ∨
        (a ≠ "" ∧ b ≠ "" ∧ ((u = a ∧ v = b) ∨ (u = b ∧ v = a))) := by
  unfold link
  by_cases hg : a = "" ∨ b = ""
  · rw [if_pos hg]
    constructor
    · exact Or.inl
    · rintro (h | ⟨ha, hb, _⟩)
      · exact h
      · rcases hg with h0 | h0
        · exact absurd h0 ha
        · exact absurd h0 hb
  · rw [if_neg hg]
    push_neg at hg
    obtain ⟨ha, hb⟩ := hg
    unfold Edge
    simp only [cbpGet_cbpAdd]
    split_ifs with h1 h2 h3
    · have h4 : u = a := h1.trans h2
      subst h4
      subst h2
      simp only [setAdd_mem_iff]
      simp [ha]
      try tauto
    · subst h1
      simp only [setAdd_mem_iff]
      simp [ha, hb, h2]
      try tauto
    · subst h3
      simp only [setAdd_mem_iff]
      simp [ha, hb, h1]
      try tauto
    · simp [h1, h3]
      try tauto

theorem edge_link_mono (adj : List (String × List String)) (a b u v : String)
    (h : Edge adj u v) : Edge (link adj a b) u v :=
  (edge_link adj a b u v).2 (Or.inl h)

/-- One step of the buildAdjacency fold. -/
def adjStep (adj : List (String × List String)) (r : Rel) :
    List (String × List String) :=
  match r with
  | .spouse a b => link adj a b
  | .parentChild c parents parentId =>
    if c = "" then adj
    else if parents.length ≠ 0 then
      parents.foldl (fun acc p => link acc p c) adj
    else
      match parentId with
      | some p => link adj p c
      | none => adj

theorem buildAdjacency_eq_foldl (rels : List Rel) :
    buildAdjacency rels = rels.foldl adjStep [] := by
  unfold buildAdjacency
  congr 1

theorem adjStep_mono (adj : List (String × List String)) (r : Rel)
    (u v : String) (h : Edge adj u v) : Edge (adjStep adj r) u v := by
  match r with
  | .spouse a b =>
    simpa only [adjStep] using edge_link_mono adj a b u v h
  | .parentChild c parents parentId =>
    simp only [adjStep]
    by_cases hc : c = ""
    · rwa [if_pos hc]
    · rw [if_neg hc]
      by_cases hps : parents.length ≠ 0
      · rw [if_pos hps]
        exact foldl_inv _ (fun acc => Edge acc u v)
          (fun acc p hacc => edge_link_mono acc p c u v hacc) parents adj h
      · rw [if_neg hps]
        match parentId with
        | some p => exact edge_link_mono adj p c u v h
        | none => exact h

theorem adjFold_mono (rels : List Rel) (adj : List (String × List String))
    (u v : String) (h : Edge adj u v) :
    Edge (rels.foldl adjStep adj) u v :=
  foldl_inv _ (fun acc => Edge acc u v)
    (fun acc r hacc => adjStep_mono acc r u v hacc) rels adj h

theorem fold_link_adds (c : String) (hc : c ≠ "") :
    ∀ (ps : List String) (adj : List (String × List String)), ∀ p ∈ ps,
      p ≠ "" →
      Edge (ps.foldl (fun acc q => link acc q c) adj) p c ∧
        Edge (ps.foldl (fun acc q => link acc q c) adj) c p := by
  intro ps
  induction ps with
  | nil => intro adj p hp; exact absurd hp (List.not_mem_nil p)
  | cons q t ih =>
    intro adj p hp hpne
    rcases List.mem_cons.1 hp with rfl | hp2
    · constructor
      · exact foldl_inv _ (fun acc => Edge acc p c)
          (fun acc r hacc => edge_link_mono acc r c p c hacc) t _
          ((edge_link adj p c p c).2 (Or.inr ⟨hpne, hc, Or.inl ⟨rfl, rfl⟩⟩))
      · exact foldl_inv _ (fun acc => Edge acc c p)
          (fun acc r hacc => edge_link_mono acc r c c p hacc) t _
          ((edge_link adj p c c p).2 (Or.inr ⟨hpne, hc, Or.inr ⟨rfl, rfl⟩⟩))
    · exact ih _ p hp2 hpne

theorem adjStep_adds (adj : List (String × List String)) (r : Rel)
    (u v : String) (hu : u ≠ "") (hv : v ≠ "")
    (he : edgeOfRel u v r = true) : Edge (adjStep adj r) u v := by
  match r with
  | .spouse a b =>
    simp only [edgeOfRel, Bool.or_eq_true, Bool.and_eq_true, beq_iff_eq] at he
    simp only [adjStep]
    rcases he with ⟨rfl, rfl⟩ | ⟨rfl, rfl⟩
    · exact (edge_link adj u v u v).2 (Or.inr ⟨hu, hv, Or.inl ⟨rfl, rfl⟩⟩)
    · exact (edge_link adj v u u v).2 (Or.inr ⟨hv, hu, Or.inr ⟨rfl, rfl⟩⟩)
  | .parentChild c ps pid =>
    simp only [edgeOfRel, Bool.or_eq_true, Bool.and_eq_true, beq_iff_eq] at he
    simp only [adjStep]
    rcases he with ⟨rfl, hd⟩ | ⟨rfl, hd⟩
    · rw [if_neg hu]
      unfold declaredParentB at hd
      by_cases hps : ps.length ≠ 0
      · rw [if_pos hps]
        rw [if_pos hps] at hd
        exact (fold_link_adds u hu ps adj v (by simpa using hd) hv).2
      · rw [if_neg hps]
        rw [if_neg hps] at hd
        have : pid = some v := by simpa using hd
        rw [this]
        exact (edge_link adj v u u v).2 (Or.inr ⟨hv, hu, Or.inr ⟨rfl, rfl⟩⟩)
    · rw [if_neg hv]
      unfold declaredParentB at hd
      by_cases hps : ps.length ≠ 0
      · rw [if_pos hps]
        rw [if_pos hps] at hd
        exact (fold_link_adds v hv ps adj u (by simpa using hd) hu).1
      · rw [if_neg hps]
        rw [if_neg hps] at hd
        have : pid = some u := by simpa using hd
        rw [this]
        exact (edge_link adj u v u v).2 (Or.inr ⟨hu, hv, Or.inl ⟨rfl, rfl⟩⟩)

theorem buildAdj_fold_complete :
    ∀ (rels : List Rel) (adj : List (String × List String)) (u v : String)
      (r : Rel), r ∈ rels → u ≠ "" → v ≠ "" → edgeOfRel u v r = true →
      Edge (rels.foldl adjStep adj) u v := by
  intro rels
  induction rels with
  | nil => intro adj u v r hr; exact absurd hr (List.not_mem_nil r)
  | cons r0 t ih =>
    intro adj u v r hr hu hv he
    rcases List.mem_cons.1 hr with rfl | hr2
    · exact foldl_inv _ (fun acc => Edge acc u v)
        (fun acc r2 hacc => adjStep_mono acc r2 u v hacc) t _
        (adjStep_adds adj r u v hu hv he)
    · exact ih (adjStep adj r0) u v r hr2 hu hv he

theorem buildAdjacency_complete (rels : List Rel) (u v : String)
    (h : specEdge rels u v) : Edge (buildAdjacency rels) u v := by
  obtain ⟨hu, hv, r, hr, he⟩ := h
  rw [buildAdjacency_eq_foldl]
  exact buildAdj_fold_complete rels [] u v r hr hu hv he

theorem fold_link_sound (c u v : String) :
    ∀ (ps : List String) (adj : List (String × List String)),
      Edge (ps.foldl (fun acc q => link acc q c) adj) u v →
      Edge adj u v ∨
        ∃ p ∈ ps, p ≠ "" ∧ c ≠ "" ∧ ((u = p ∧ v = c) ∨ (u = c ∧ v = p)) := by
  intro ps
  induction ps with
  | nil => intro adj h; exact Or.inl h
  | cons q t ih =>
    intro adj h
    rcases ih (link adj q c) h with h2 | ⟨p, hp, hrest⟩
    · rcases (edge_link adj q c u v).1 h2 with h3 | ⟨hq, hc, hcase⟩
      · exact Or.inl h3
      · exact Or.inr ⟨q, List.mem_cons_self _ _, hq, hc, hcase⟩
    · exact Or.inr ⟨p, List.mem_cons_of_mem _ hp, hrest⟩

theorem adjStep_sound (adj : List (String × List String)) (r : Rel)
    (u v : String) (h : Edge (adjStep adj r) u v) :
    Edge adj u v ∨ (u ≠ "" ∧ v ≠ "" ∧ edgeOfRel u v r = true) := by
  match r with
  | .spouse a b =>
    simp only [adjStep] at h
    rcases (edge_link adj a b u v).1 h with h2 | ⟨ha, hb, hcase⟩
    · exact Or.inl h2
    · rcases hcase with ⟨rfl, rfl⟩ | ⟨rfl, rfl⟩
      · exact Or.inr ⟨ha, hb, by simp [edgeOfRel]⟩
      · exact Or.inr ⟨hb, ha, by simp [edgeOfRel]⟩
  | .parentChild c ps pid =>
    simp only [adjStep] at h
    by_cases hc : c = ""
    · rw [if_pos hc] at h
      exact Or.inl h
    · rw [if_neg hc] at h
      by_cases hps : ps.length ≠ 0
      · rw [if_pos hps] at h
        rcases fold_link_sound c u v ps adj h with h2 | ⟨p, hp, hpne, hcne, hcase⟩
        · exact Or.inl h2
        · rcases hcase with ⟨rfl, rfl⟩ | ⟨rfl, rfl⟩
          · refine Or.inr ⟨hpne, hcne, ?_⟩
            simp [edgeOfRel, declaredParentB, hps, hp]
          · refine Or.inr ⟨hcne, hpne, ?_⟩
            simp [edgeOfRel, declaredParentB, hps, hp]
      · rw [if_neg hps] at h
        match pid with
        | none => exact Or.inl h
        | some p =>
          rcases (edge_link adj p c u v).1 h with h2 | ⟨hpne, hcne, hcase⟩
          · exact Or.inl h2
          · rcases hcase with ⟨rfl, rfl⟩ | ⟨rfl, rfl⟩
            · refine Or.inr ⟨hpne, hcne, ?_⟩
              simp [edgeOfRel, declaredParentB, hps]
            · refine Or.inr ⟨hcne, hpne, ?_⟩
              simp [edgeOfRel, declaredParentB, hps]

theorem buildAdj_fold_sound :
    ∀ (rels : List Rel) (adj : List (String × List String)) (u v : String),
      Edge (rels.foldl adjStep adj) u v →
      Edge adj u v ∨ ∃ r ∈ rels, u ≠ "" ∧ v ≠ "" ∧ edgeOfRel u v r = true := by
  intro rels
  induction rels with
  | nil => intro adj u v h; exact Or.inl h
  | cons r0 t ih =>
    intro adj u v h
    rcases ih (adjStep adj r0) u v h with h2 | ⟨r, hr, hrest⟩
    · rcases adjStep_sound adj r0 u v h2 with h3 | ⟨hu, hv, he⟩
      · exact Or.inl h3
      · exact Or.inr ⟨r0, List.mem_cons_self _ _, hu, hv, he⟩
    · exact Or.inr ⟨r, List.mem_cons_of_mem _ hr, hrest⟩

theorem buildAdjacency_sound (rels : List Rel) (u v : String)
    (h : Edge (buildAdjacency rels) u v) : specEdge rels u v := by
  rw [buildAdjacency_eq_foldl] at h
  rcases buildAdj_fold_sound rels [] u v h with h2 | ⟨r, hr, hu, hv, he⟩
  · exact absurd h2 (by simp [Edge, cbpGet])
  · exact ⟨hu, hv, r, hr, he⟩

/-- The code's kinship graph is exactly the spec's: an edge for every
spouse pair and every child-declared-parent pair with present (non-empty)
identifiers. -/
theorem buildAdjacency_spec (rels : List Rel) (u v : String) :
    Edge (buildAdjacency rels) u v ↔ specEdge rels u v :=
  ⟨buildAdjacency_sound rels u v, buildAdjacency_complete rels u v⟩

/-- Reachability in n steps, the measure BFS minimizes. -/
inductive ReachN (E : String → String → Prop) (s : String) :
    String → Nat → Prop
  | zero : ReachN E s s 0
  | succ {x y : String} {n : Nat} :
      ReachN E s x n → E x y → ReachN E s y (n + 1)

theorem alGetP_of_mem_nodup :
    ∀ (prev : List (String × Option String)),
      (prev.map (fun e => e.1)).Nodup →
      ∀ (u : String) (w : Option String), (u, w) ∈ prev →
        alGetP prev u = some w := by
  intro prev
  induction prev with
  | nil => intro _ u w h; exact absurd h (List.not_mem_nil _)
  | cons e t ih =>
    intro hnd u w h
    simp only [List.map_cons, List.nodup_cons] at hnd
    rcases List.mem_cons.1 h with rfl | h2
    · simp [alGetP, List.find?]
    · have hne : ¬ (e.1 = u) := by
        intro heq
        exact hnd.1 (heq ▸ List.mem_map_of_mem (fun e => e.1) h2)
      unfold alGetP
      simp only [List.find?, hne, decide_eq_true_eq, if_false]
      exact ih hnd.2 u w h2

theorem mem_keys_exists (prev : List (String × Option String)) (u : String)
    (h : u ∈ prev.map (fun e => e.1)) : ∃ w, (u, w) ∈ prev := by
  rcases List.mem_map.1 h with ⟨e, he, rfl⟩
  exact ⟨e.2, by simpa using he⟩

theorem traceBack_stop (prevBig : List (String × Option String)) (u : String)
    (f : Nat) (h : alGetP prevBig u = some none) :
    traceBack prevBig (f + 1) u = [u] := by
  simp only [traceBack, h]

theorem traceBack_step (prevBig : List (String × Option String))
    (u z : String) (f : Nat) (h : alGetP prevBig u = some (some z))
    (hz : z ≠ "") :
    traceBack prevBig (f + 1) u = u :: traceBack prevBig f z := by
  simp only [traceBack, h, if_pos hz]

theorem traceBack_spec (E : String → String → Prop) (s : String)
    (prev prevBig : List (String × Option String)) (d : String → Nat)
    (hlook : ∀ x ∈ prev.map (fun e => e.1), alGetP prevBig x = alGetP prev x)
    (hnodup : (prev.map (fun e => e.1)).Nodup)
    (hds : d s = 0)
    (hI3 : ∀ e ∈ prev, (e.1 = s ∧ e.2 = none) ∨
      ∃ z, e.2 = some z ∧ z ≠ "" ∧ z ∈ prev.map (fun e => e.1) ∧ E z e.1 ∧
        d e.1 = d z + 1) :
    ∀ (n : Nat) (u : String), u ∈ prev.map (fun e => e.1) → d u ≤ n →
      ∀ fuel, d u < fuel →
      (traceBack prevBig fuel u).length = d u + 1 ∧
      (traceBack prevBig fuel u).head? = some u ∧
      (traceBack prevBig fuel u).getLast? = some s ∧
      List.Chain' (fun a b => E b a) (traceBack prevBig fuel u) := by
  intro n
  induction n with
  | zero =>
    intro u hu hdu fuel hfu
    obtain ⟨w, hw⟩ := mem_keys_exists prev u hu
    obtain ⟨f, rfl⟩ : ∃ f, fuel = f + 1 := ⟨fuel - 1, by omega⟩
    have hI3u := hI3 (u, w) hw
    dsimp only at hI3u
    rcases hI3u with ⟨rfl, rfl⟩ | ⟨z, rfl, hzne, hzk, hE, hdz⟩
    · have hlu : alGetP prevBig u = some none :=
        (hlook u hu).trans (alGetP_of_mem_nodup prev hnodup u none hw)
      rw [traceBack_stop prevBig u f hlu]
      exact ⟨by simp [hds], rfl, rfl, List.chain'_singleton u⟩
    · omega
  | succ m ih =>
    intro u hu hdu fuel hfu
    obtain ⟨w, hw⟩ := mem_keys_exists prev u hu
    obtain ⟨f, rfl⟩ : ∃ f, fuel = f + 1 := ⟨fuel - 1, by omega⟩
    have hI3u := hI3 (u, w) hw
    dsimp only at hI3u
    rcases hI3u with ⟨rfl, rfl⟩ | ⟨z, rfl, hzne, hzk, hE, hdz⟩
    · have hlu : alGetP prevBig u = some none :=
        (hlook u hu).trans (alGetP_of_mem_nodup prev hnodup u none hw)
      rw [traceBack_stop prevBig u f hlu]
      exact ⟨by simp [hds], rfl, rfl, List.chain'_singleton u⟩
    · have hlu : alGetP prevBig u = some (some z) :=
        (hlook u hu).trans (alGetP_of_mem_nodup prev hnodup u (some z) hw)
      rw [traceBack_step prevBig u z f hlu hzne]
      have hdzm : d z ≤ m := by omega
      have hdzf : d z < f := by omega
      obtain ⟨hlen, hhead, hlast, hchain⟩ := ih z hzk hdzm f hdzf
      refine ⟨by rw [List.length_cons, hlen]; omega, rfl, ?_, ?_⟩
      · rcases htb : traceBack prevBig f z with _ | ⟨b, l⟩
        · rw [htb] at hlen
          simp at hlen
        · rw [htb] at hlast
          rw [List.getLast?_cons_cons]
          exact hlast
      · rw [List.chain'_cons']
        refine ⟨?_, hchain⟩
        intro h hh
        simp only [hhead, Option.mem_some_iff] at hh
        subst hh
        exact hE

theorem alGetP_append_left (l r : List (String × Option String)) (k : String)
    (h : (alGetP l k).isSome) : alGetP (l ++ r) k = alGetP l k := by
  unfold alGetP at h ⊢
  rw [List.find?_append]
  rcases hf : List.find? (fun e => decide (e.1 = k)) l with _ | e
  · rw [hf] at h
    simp at h
  · rw [hf]
    rfl

theorem alGetP_append_right (l r : List (String × Option String)) (k : String)
    (h : alGetP l k = none) : alGetP (l ++ r) k = alGetP r k := by
  unfold alGetP at h ⊢
  rw [List.find?_append]
  rcases hf : List.find? (fun e => decide (e.1 = k)) l with _ | e
  · rw [hf]
    rfl
  · rw [hf] at h
    simp at h

theorem bfsScan_cases (g u : String) :
    ∀ (vs : List String) (prev : List (String × Option String))
      (q : List String),
      (∃ prev2 : List (String × Option String), ∃ q2 new : List String,
        bfsScan g u vs prev q = .ok (prev2, q2) ∧
        prev2 = prev ++ new.map (fun v => (v, some u)) ∧
        q2 = q ++ new ∧ new.Nodup ∧
        (∀ v ∈ new, v ∈ vs ∧ alGetP prev v = none ∧ v ≠ g) ∧
        (∀ v ∈ vs, (alGetP prev2 v).isSome)) ∨
      (∃ new : List String, bfsScan g u vs prev q = .error
          ((g :: traceBack
              (prev ++ new.map (fun v => (v, some u)) ++ [(g, some u)])
              (prev ++ new.map (fun v => (v, some u)) ++ [(g, some u)]).length
              u).reverse) ∧
        new.Nodup ∧ (∀ v ∈ new, v ∈ vs ∧ alGetP prev v = none ∧ v ≠ g) ∧
        g ∈ vs ∧ alGetP prev g = none) := by
  intro vs
  induction vs with
  | nil =>
    intro prev q
    left
    refine ⟨prev, q, [], rfl, by simp, by simp, List.nodup_nil, ?_, ?_⟩
    · intro w hw
      exact absurd hw (List.not_mem_nil w)
    · intro w hw
      exact absurd hw (List.not_mem_nil w)
  | cons v vs ih =>
    intro prev q
    by_cases hseen : (alGetP prev v).isSome
    · have hstep : bfsScan g u (v :: vs) prev q = bfsScan g u vs prev q := by
        simp only [bfsScan, hseen, if_true]
      rw [hstep]
      rcases ih prev q with
        ⟨prev2, q2, new, hrun, hp, hq, hnd, hnew, hall⟩ |
        ⟨new, hrun, hnd, hnew, hg, hgn⟩
      · left
        refine ⟨prev2, q2, new, hrun, hp, hq, hnd, ?_, ?_⟩
        · intro w hw
          obtain ⟨h1, h2, h3⟩ := hnew w hw
          exact ⟨List.mem_cons_of_mem _ h1, h2, h3⟩
        · intro w hw
          rcases List.mem_cons.1 hw with rfl | hw2
          · rw [hp, alGetP_append_left _ _ _ hseen]
            exact hseen
          · exact hall w hw2
      · right
        refine ⟨new, hrun, hnd, ?_, List.mem_cons_of_mem _ hg, hgn⟩
        intro w hw
        obtain ⟨h1, h2, h3⟩ := hnew w hw
        exact ⟨List.mem_cons_of_mem _ h1, h2, h3⟩
    · have hseen2 : alGetP prev v = none :=
        Option.not_isSome_iff_eq_none.mp hseen
      by_cases hvg : v = g
      · right
        subst hvg
        refine ⟨[], ?_, List.nodup_nil, ?_, List.mem_cons_self _ _, hseen2⟩
        · simp [bfsScan, hseen]
        · intro w hw
          exact absurd hw (List.not_mem_nil w)
      · have hstep : bfsScan g u (v :: vs) prev q =
            bfsScan g u vs (prev ++ [(v, some u)]) (q ++ [v]) := by
          simp [bfsScan, hseen, hvg]
        rw [hstep]
        rcases ih (prev ++ [(v, some u)]) (q ++ [v]) with
          ⟨prev2, q2, new, hrun, hp, hq, hnd, hnew, hall⟩ |
          ⟨new, hrun, hnd, hnew, hg, hgn⟩
        · left
          refine ⟨prev2, q2, v :: new, hrun, ?_, ?_, ?_, ?_, ?_⟩
          · rw [hp]
            simp
          · rw [hq]
            simp
          · rw [List.nodup_cons]
            refine ⟨?_, hnd⟩
            intro hv
            have h2 := (hnew v hv).2.1
            rw [alGetP_append_right _ _ _ hseen2] at h2
            simp [alGetP, List.find?] at h2
          · intro w hw
            rcases List.mem_cons.1 hw with rfl | hw2
            · exact ⟨List.mem_cons_self _ _, hseen2, hvg⟩
            · obtain ⟨h1, h2, h3⟩ := hnew w hw2
              refine ⟨List.mem_cons_of_mem _ h1, ?_, h3⟩
              by_cases hw3 : (alGetP prev w).isSome
              · rw [alGetP_append_left _ _ _ hw3] at h2
                rw [h2] at hw3
                simp at hw3
              · exact Option.not_isSome_iff_eq_none.mp hw3
          · intro w hw
            rcases List.mem_cons.1 hw with rfl | hw2
            · rw [hp, alGetP_append_left]
              · rw [alGetP_append_right _ _ _ hseen2]
                simp [alGetP, List.find?]
              · rw [alGetP_append_right _ _ _ hseen2]
                simp [alGetP, List.find?]
            · exact hall w hw2
        · right
          refine ⟨v :: new, ?_, ?_, ?_, List.mem_cons_of_mem _ hg, ?_⟩
          · rw [hrun]
            simp [List.append_assoc]
          · rw [List.nodup_cons]
            refine ⟨?_, hnd⟩
            intro hv
            have h2 := (hnew v hv).2.1
            rw [alGetP_append_right _ _ _ hseen2] at h2
            simp [alGetP, List.find?] at h2
          · intro w hw
            rcases List.mem_cons.1 hw with rfl | hw2
            · exact ⟨List.mem_cons_self _ _, hseen2, hvg⟩
            · obtain ⟨h1, h2, h3⟩ := hnew w hw2
              refine ⟨List.mem_cons_of_mem _ h1, ?_, h3⟩
              by_cases hw3 : (alGetP prev w).isSome
              · rw [alGetP_append_left _ _ _ hw3] at h2
                rw [h2] at hw3
                simp at hw3
              · exact Option.not_isSome_iff_eq_none.mp hw3
          · by_cases hg3 : (alGetP prev g).isSome
            · rw [alGetP_append_left _ _ _ hg3] at hgn
              rw [hgn] at hg3
              simp at hg3
            · exact Option.not_isSome_iff_eq_none.mp hg3

theorem alGetP_isSome_iff (prev : List (String × Option String)) (k : String) :
    (alGetP prev k).isSome ↔ k ∈ prev.map (fun e => e.1) := by
  unfold alGetP
  have hmap : ∀ o : Option (String × Option String),
      (o.map (fun e => e.2)).isSome = o.isSome := by
    intro o
    cases o <;> rfl
  rw [hmap, List.find?_isSome]
  constructor
  · rintro ⟨e, he, hp⟩
    simp only [decide_eq_true_eq] at hp
    exact hp ▸ List.mem_map_of_mem (fun e => e.1) he
  · intro h
    rcases List.mem_map.1 h with ⟨e, he, rfl⟩
    exact ⟨e, he, by simp⟩

/-- Every identifier reachable as a neighbor value of the adjacency map. -/
def adjVals (adj : List (String × List String)) : Finset String :=
  ((adj.map (fun e => e.2)).flatten).toFinset

theorem cbpGet_sub_adjVals (adj : List (String × List String)) (k w : String)
    (h : w ∈ cbpGet adj k) : w ∈ adjVals adj := by
  unfold cbpGet at h
  rcases hf : adj.find? (fun e => e.1 = k) with _ | e
  · rw [hf] at h
    simp at h
  · rw [hf] at h
    simp only [Option.map_some', Option.getD_some] at h
    have he : e ∈ adj := List.mem_of_find?_eq_some hf
    unfold adjVals
    rw [List.mem_toFinset, List.mem_flatten]
    exact ⟨e.2, List.mem_map_of_mem (fun e => e.2) he, h⟩

theorem reachN_succ_inv {E : String → String → Prop} {s x : String} {n : Nat}
    (h : ReachN E s x (n + 1)) : ∃ z, ReachN E s z n ∧ E z x := by
  cases h with
  | succ hz hE => exact ⟨_, hz, hE⟩

/-- The BFS loop invariant: prev is a well-formed shortest-path forest for
the discovered vertices, the queue is a monotone frontier, processed
vertices are closed, the goal is still undiscovered, and fuel dominates
the work left. -/
structure BfsInv (adj : List (String × List String)) (s g : String)
    (fuel : Nat) (q : List String) (prev : List (String × Option String))
    (d : String → Nat) : Prop where
  nodup : (prev.map (fun e => e.1)).Nodup
  start_mem : (s, none) ∈ prev
  dstart : d s = 0
  entries : ∀ e ∈ prev, (e.1 = s ∧ e.2 = none) ∨
    ∃ z, e.2 = some z ∧ z ≠ "" ∧ z ∈ prev.map (fun e => e.1) ∧
      Edge adj z e.1 ∧ d e.1 = d z + 1
  q_keys : ∀ v ∈ q, v ∈ prev.map (fun e => e.1)
  q_mono : List.Pairwise (fun a b => d a ≤ d b) q
  keys_bound : ∀ h ∈ q.head?, ∀ v ∈ prev.map (fun e => e.1), d v ≤ d h + 1
  closed : ∀ v ∈ prev.map (fun e => e.1), v ∉ q →
    ∀ w ∈ cbpGet adj v, w ∈ prev.map (fun e => e.1) ∧ d w ≤ d v + 1
  frontier : ∀ x n, ReachN (Edge adj) s x n →
    (q = [] ∨ ∃ h, q.head? = some h ∧ n < d h) →
    x ∈ prev.map (fun e => e.1) ∧ d x ≤ n
  no_empty : ∀ v ∈ prev.map (fun e => e.1), v ≠ ""
  goal_out : g ∉ prev.map (fun e => e.1)
  depth : ∀ v ∈ prev.map (fun e => e.1), d v + 1 ≤ prev.length
  fuel_ok : q.length +
    ((insert s (adjVals adj)) \ (prev.map (fun e => e.1)).toFinset).card + 1
      ≤ fuel

theorem map_fst_pair (u : String) (new : List String) :
    (new.map (fun v => (v, some u))).map
      (fun e : String × Option String => e.1) = new := by
  induction new with
  | nil => rfl
  | cons a l ih => simp [ih]

theorem bfsInv_step (adj : List (String × List String)) (s g : String)
    (f : Nat) (u : String) (t : List String)
    (prev prev2 : List (String × Option String)) (d : String → Nat)
    (new q2 : List String)
    (hadj : ∀ k w, w ∈ cbpGet adj k → w ≠ "")
    (hinv : BfsInv adj s g (f + 1) (u :: t) prev d)
    (hp : prev2 = prev ++ new.map (fun v => (v, some u)))
    (hq : q2 = t ++ new)
    (hnd : new.Nodup)
    (hnew : ∀ v ∈ new, v ∈ cbpGet adj u ∧ alGetP prev v = none ∧ v ≠ g)
    (hall : ∀ v ∈ cbpGet adj u, (alGetP prev2 v).isSome) :
    BfsInv adj s g f q2 prev2
      (fun v => if v ∈ new then d u + 1 else d v) := by
  set d2 := fun v => if v ∈ new then d u + 1 else d v with hd2def
  have hkeys2 : prev2.map (fun e => e.1) = prev.map (fun e => e.1) ++ new := by
    rw [hp, List.map_append, map_fst_pair]
  have hnewnk : ∀ v ∈ new, v ∉ prev.map (fun e => e.1) := by
    intro v hv hmem
    have h1 := (alGetP_isSome_iff prev v).2 hmem
    rw [(hnew v hv).2.1] at h1
    simp at h1
  have huk : u ∈ prev.map (fun e => e.1) :=
    hinv.q_keys u (List.mem_cons_self u t)
  have hsk : s ∈ prev.map (fun e => e.1) := by
    simpa using List.mem_map_of_mem (fun e => e.1) hinv.start_mem
  have hd2old : ∀ v, v ∈ prev.map (fun e => e.1) → d2 v = d v := by
    intro v hv
    exact if_neg (fun hc => hnewnk v hc hv)
  have hd2new : ∀ v ∈ new, d2 v = d u + 1 := by
    intro v hv
    exact if_pos hv
  have hKB : ∀ v ∈ prev.map (fun e => e.1), d v ≤ d u + 1 :=
    hinv.keys_bound u rfl
  have htk : ∀ a ∈ t, d u ≤ d a := fun a ha =>
    List.rel_of_pairwise_cons hinv.q_mono ha
  have htkeys : ∀ a ∈ t, a ∈ prev.map (fun e => e.1) := fun a ha =>
    hinv.q_keys a (List.mem_cons_of_mem u ha)
  have hmem2 : ∀ v, v ∈ prev2.map (fun e => e.1) ↔
      v ∈ prev.map (fun e => e.1) ∨ v ∈ new := by
    intro v
    rw [hkeys2, List.mem_append]
  have hq2d : ∀ a ∈ q2, d u ≤ d2 a := by
    intro a ha
    rw [hq] at ha
    rcases List.mem_append.1 ha with ha2 | ha2
    · rw [hd2old a (htkeys a ha2)]
      exact htk a ha2
    · rw [hd2new a ha2]
      omega
  have hq2mono : List.Pairwise (fun a b => d2 a ≤ d2 b) q2 := by
    rw [hq, List.pairwise_append]
    refine ⟨?_, ?_, ?_⟩
    · refine List.Pairwise.imp_of_mem ?_ hinv.q_mono.of_cons
      intro a b ha hb hab
      rw [hd2old a (htkeys a ha), hd2old b (htkeys b hb)]
      exact hab
    · refine List.pairwise_of_forall_mem_list ?_
      intro a ha b hb
      rw [hd2new a ha, hd2new b hb]
    · intro a ha b hb
      rw [hd2old a (htkeys a ha), hd2new b hb]
      exact hKB a (htkeys a ha)
  have hq2sub : ∀ v ∈ q2, v ∈ prev2.map (fun e => e.1) := by
    intro v hv
    rw [hq] at hv
    rw [hmem2]
    rcases List.mem_append.1 hv with hv2 | hv2
    · exact Or.inl (htkeys v hv2)
    · exact Or.inr hv2
  have hcontra : ∀ (m : Nat),
      (q2 = [] ∨ ∃ h, q2.head? = some h ∧ m + 1 < d2 h) →
      ∀ z, z ∈ q2 → d2 z ≤ m → False := by
    intro m hcond z hzq hdz
    rcases hcond with hnil | ⟨h2, hh2, hlt⟩
    · rw [hnil] at hzq
      exact absurd hzq (List.not_mem_nil z)
    · obtain ⟨rest, hq2eq⟩ : ∃ rest, q2 = h2 :: rest := by
        rcases hq2c : q2 with _ | ⟨a, rest⟩
        · rw [hq2c] at hh2
          simp at hh2
        · rw [hq2c] at hh2
          have ha2 : a = h2 := by simpa using hh2
          exact ⟨rest, by rw [ha2]⟩
      have hh2z : d2 h2 ≤ d2 z := by
        rw [hq2eq] at hzq
        rcases List.mem_cons.1 hzq with rfl | hz2
        · exact le_refl _
        · have hpw : List.Pairwise (fun a b => d2 a ≤ d2 b) (h2 :: rest) :=
            hq2eq ▸ hq2mono
          exact List.rel_of_pairwise_cons hpw hz2
      omega
  refine ⟨?_, ?_, ?_, ?_, hq2sub, hq2mono, ?_, ?_, ?_, ?_, ?_, ?_, ?_⟩
  · rw [hkeys2, List.nodup_append]
    exact ⟨hinv.nodup, hnd, fun a ha hc => hnewnk a hc ha⟩
  · rw [hp]
    exact List.mem_append_left _ hinv.start_mem
  · rw [hd2old s hsk]
    exact hinv.dstart
  · intro e he
    rw [hp] at he
    rcases List.mem_append.1 he with he2 | he2
    · rcases hinv.entries e he2 with h | ⟨z, h1, h2, h3, h4, h5⟩
      · exact Or.inl h
      · refine Or.inr ⟨z, h1, h2, (hmem2 z).2 (Or.inl h3), h4, ?_⟩
        rw [hd2old e.1 (List.mem_map_of_mem (fun e => e.1) he2),
          hd2old z h3]
        exact h5
    · rcases List.mem_map.1 he2 with ⟨v, hv, rfl⟩
      refine Or.inr ⟨u, rfl, hinv.no_empty u huk, (hmem2 u).2 (Or.inl huk),
        (hnew v hv).1, ?_⟩
      dsimp only
      rw [hd2new v hv, hd2old u huk]
  · intro h2 hh2 v hv
    have hh2q : h2 ∈ q2 := List.mem_of_mem_head? hh2
    have hu2 : d u ≤ d2 h2 := hq2d h2 hh2q
    rcases (hmem2 v).1 hv with hv2 | hv2
    · rw [hd2old v hv2]
      have := hKB v hv2
      omega
    · rw [hd2new v hv2]
      omega
  · intro v hv hvq w hw
    rcases (hmem2 v).1 hv with hv2 | hv2
    · by_cases hvu : v = u
      · subst hvu
        refine ⟨(alGetP_isSome_iff prev2 w).1 (hall w hw), ?_⟩
        rw [hd2old v hv2]
        rcases (hmem2 w).1 ((alGetP_isSome_iff prev2 w).1 (hall w hw)) with
          hw2 | hw2
        · rw [hd2old w hw2]
          exact hKB w hw2
        · rw [hd2new w hw2]
      · by_cases hvt : v ∈ t
        · exact absurd (hq ▸ List.mem_append_left _ hvt) hvq
        · have hvnq : v ∉ (u :: t) := by
            intro hc
            rcases List.mem_cons.1 hc with rfl | hc2
            · exact hvu rfl
            · exact hvt hc2
          obtain ⟨hwk, hwd⟩ := hinv.closed v hv2 hvnq w hw
          refine ⟨(hmem2 w).2 (Or.inl hwk), ?_⟩
          rw [hd2old w hwk, hd2old v hv2]
          exact hwd
    · exact absurd (hq ▸ List.mem_append_right _ hv2) hvq
  · intro x n hr hcond
    induction n using Nat.strong_induction_on generalizing x with
    | _ n ihn =>
      rcases n with _ | m
      · cases hr with
        | zero =>
          refine ⟨(hmem2 s).2 (Or.inl hsk), ?_⟩
          rw [hd2old s hsk, hinv.dstart]
      · obtain ⟨z, hz, hE⟩ := reachN_succ_inv hr
        have hcondz : q2 = [] ∨ ∃ h, q2.head? = some h ∧ m < d2 h := by
          rcases hcond with h | ⟨h2, hh1, hh2⟩
          · exact Or.inl h
          · exact Or.inr ⟨h2, hh1, by omega⟩
        obtain ⟨hzk, hdz⟩ := ihn m (by omega) z hz hcondz
        rcases (hmem2 z).1 hzk with hz2 | hz2
        · by_cases hzu : z = u
          · subst hzu
            have hxk : x ∈ prev2.map (fun e => e.1) :=
              (alGetP_isSome_iff prev2 x).1 (hall x hE)
            refine ⟨hxk, ?_⟩
            rw [hd2old z hz2] at hdz
            rcases (hmem2 x).1 hxk with hx2 | hx2
            · rw [hd2old x hx2]
              have := hKB x hx2
              omega
            · rw [hd2new x hx2]
              omega
          · by_cases hzt : z ∈ t
            · exact (hcontra m hcond z
                (hq ▸ List.mem_append_left _ hzt) hdz).elim
            · have hznq : z ∉ (u :: t) := by
                intro hc
                rcases List.mem_cons.1 hc with rfl | hc2
                · exact hzu rfl
                · exact hzt hc2
              obtain ⟨hxk, hxd⟩ := hinv.closed z hz2 hznq x hE
              refine ⟨(hmem2 x).2 (Or.inl hxk), ?_⟩
              rw [hd2old x hxk]
              rw [hd2old z hz2] at hdz
              omega
        · exact (hcontra m hcond z
            (hq ▸ List.mem_append_right _ hz2) hdz).elim
  · intro v hv
    rcases (hmem2 v).1 hv with hv2 | hv2
    · exact hinv.no_empty v hv2
    · exact hadj u v (hnew v hv2).1
  · rw [hkeys2]
    intro hc
    rcases List.mem_append.1 hc with hc2 | hc2
    · exact hinv.goal_out hc2
    · exact (hnew g hc2).2.2 rfl
  · intro v hv
    have hlen2 : prev2.length = prev.length + new.length := by
      rw [hp]
      simp
    rcases (hmem2 v).1 hv with hv2 | hv2
    · rw [hd2old v hv2]
      have := hinv.depth v hv2
      omega
    · rw [hd2new v hv2]
      have h1 := hinv.depth u huk
      have h2 : 0 < new.length := List.length_pos_of_mem hv2
      omega
  · have hk2f : (prev2.map (fun e => e.1)).toFinset =
        (prev.map (fun e => e.1)).toFinset ∪ new.toFinset := by
      rw [hkeys2, List.toFinset_append]
    have hnsub : new.toFinset ⊆
        (insert s (adjVals adj)) \ (prev.map (fun e => e.1)).toFinset := by
      intro x hx
      rw [List.mem_toFinset] at hx
      rw [Finset.mem_sdiff]
      refine ⟨Finset.mem_insert_of_mem (cbpGet_sub_adjVals adj u x (hnew x hx).1), ?_⟩
      rw [List.mem_toFinset]
      exact hnewnk x hx
    have hsd : (insert s (adjVals adj)) \ ((prev.map (fun e => e.1)).toFinset ∪ new.toFinset) =
        ((insert s (adjVals adj)) \ (prev.map (fun e => e.1)).toFinset) \ new.toFinset := by
      ext x
      simp only [Finset.mem_sdiff, Finset.mem_union]
      tauto
    have hcard : ((insert s (adjVals adj)) \ (prev2.map (fun e => e.1)).toFinset).card =
        ((insert s (adjVals adj)) \ (prev.map (fun e => e.1)).toFinset).card - new.length := by
      rw [hk2f, hsd, Finset.card_sdiff hnsub, List.toFinset_card_of_nodup hnd]
    have hcge : new.length ≤ ((insert s (adjVals adj)) \ (prev.map (fun e => e.1)).toFinset).card := by
      calc new.length = new.toFinset.card :=
            (List.toFinset_card_of_nodup hnd).symm
        _ ≤ _ := Finset.card_le_card hnsub
    have hfo := hinv.fuel_ok
    have hq2len : q2.length = t.length + new.length := by
      rw [hq]
      simp
    rw [hcard, hq2len]
    simp only [List.length_cons] at hfo
    omega

theorem bfsLoop_correct (adj : List (String × List String)) (s g : String)
    (hadj : ∀ k w, w ∈ cbpGet adj k → w ≠ "") :
    ∀ (fuel : Nat) (q : List String) (prev : List (String × Option String))
      (d : String → Nat), BfsInv adj s g fuel q prev d →
      (∃ n, ReachN (Edge adj) s g n) →
      ∃ p, bfsLoop adj g fuel q prev = some p ∧
        p.head? = some s ∧ p.getLast? = some g ∧
        List.Chain' (Edge adj) p ∧
        ∀ n, ReachN (Edge adj) s g n → p.length ≤ n + 1 := by
  intro fuel
  induction fuel with
  | zero =>
    intro q prev d hinv hconn
    exfalso
    have := hinv.fuel_ok
    omega
  | succ f ih =>
    intro q prev d hinv hconn
    have hsk : s ∈ prev.map (fun e => e.1) := by
      simpa using List.mem_map_of_mem (fun e => e.1) hinv.start_mem
    rcases q with _ | ⟨u, t⟩
    · obtain ⟨n, hg⟩ := hconn
      obtain ⟨hgk, _⟩ := hinv.frontier g n hg (Or.inl rfl)
      exact absurd hgk hinv.goal_out
    · have huk : u ∈ prev.map (fun e => e.1) :=
        hinv.q_keys u (List.mem_cons_self u t)
      rcases bfsScan_cases g u (cbpGet adj u) prev t with
        ⟨prev2, q2, new, hrun, hp, hq, hnd, hnew2, hall⟩ |
        ⟨new, hrun, hnd, hnew2, hgvs, hgn⟩
      · have hloop : bfsLoop adj g (f + 1) (u :: t) prev =
            bfsLoop adj g f q2 prev2 := by
          simp only [bfsLoop, hrun]
        rw [hloop]
        exact ih q2 prev2 _
          (bfsInv_step adj s g f u t prev prev2 d new q2 hadj hinv hp hq hnd
            hnew2 hall) hconn
      · set prevG := prev ++ new.map (fun v => (v, some u)) ++ [(g, some u)]
          with hprevG
        have hloop : bfsLoop adj g (f + 1) (u :: t) prev =
            some ((g :: traceBack prevG prevG.length u).reverse) := by
          simp only [bfsLoop, hrun]
        have hlookG : ∀ x ∈ prev.map (fun e => e.1),
            alGetP prevG x = alGetP prev x := by
          intro x hx
          rw [hprevG, List.append_assoc]
          exact alGetP_append_left _ _ _ ((alGetP_isSome_iff prev x).2 hx)
        have hdu : d u < prevG.length := by
          have h1 := hinv.depth u huk
          rw [hprevG]
          simp only [List.length_append, List.length_map, List.length_cons,
            List.length_nil]
          omega
        obtain ⟨hlen, hhead, hlast, hchain⟩ :=
          traceBack_spec (Edge adj) s prev prevG d hlookG hinv.nodup
            hinv.dstart hinv.entries (d u) u huk (le_refl _) prevG.length hdu
        refine ⟨(g :: traceBack prevG prevG.length u).reverse, hloop,
          ?_, ?_, ?_, ?_⟩
        · rw [List.reverse_cons]
          have hrev : (traceBack prevG prevG.length u).reverse.head?
              = some s := by
            rw [List.head?_reverse]
            exact hlast
          rcases hLr : (traceBack prevG prevG.length u).reverse with _ | ⟨a, l2⟩
          · rw [hLr] at hrev
            simp at hrev
          · have hrev2 : (a :: l2).head? = some s := hLr ▸ hrev
            simp only [List.cons_append, List.head?_cons]
            simpa using hrev2
        · rw [List.reverse_cons]
          exact List.getLast?_concat _
        · rw [List.reverse_cons, List.chain'_append]
          refine ⟨?_, List.chain'_singleton g, ?_⟩
          · rw [List.chain'_reverse]
            exact hchain
          · intro x hx y hy
            rw [List.getLast?_reverse, hhead] at hx
            have hxu : u = x := by simpa using hx
            have hyg : g = y := by simpa using hy
            subst hxu
            subst hyg
            exact hgvs
        · intro n hrn
          have hplen : ((g :: traceBack prevG prevG.length u).reverse).length
              = d u + 2 := by
            simp [hlen]
          rw [hplen]
          by_contra hle
          push_neg at hle
          have hnd2 : n ≤ d u := by omega
          rcases n with _ | m
          · cases hrn with
            | zero => exact hinv.goal_out hsk
          · obtain ⟨z, hz, hE⟩ := reachN_succ_inv hrn
            have hmlt : m < d u := by omega
            obtain ⟨hzk, hdz⟩ := hinv.frontier z m hz (Or.inr ⟨u, rfl, hmlt⟩)
            have hznq : z ∉ (u :: t) := by
              intro hc
              rcases List.mem_cons.1 hc with rfl | hc2
              · omega
              · have := List.rel_of_pairwise_cons hinv.q_mono hc2
                omega
            obtain ⟨hgk, _⟩ := hinv.closed z hzk hznq g hE
            exact hinv.goal_out hgk

theorem bfsInv_init (adj : List (String × List String)) (s g : String)
    (hs : s ≠ "") (hsg : s ≠ g) :
    BfsInv adj s g (bfsFuel adj) [s] [(s, none)] (fun _ => 0) := by
  refine ⟨?_, ?_, rfl, ?_, ?_, ?_, ?_, ?_, ?_, ?_, ?_, ?_, ?_⟩
  · simp
  · simp
  · intro e he
    rw [List.mem_singleton] at he
    subst he
    exact Or.inl ⟨rfl, rfl⟩
  · intro v hv
    simpa using hv
  · exact List.pairwise_singleton _ _
  · intro h hh v hv
    omega
  · intro v hv hvq
    have hv2 : v = s := by simpa using hv
    subst hv2
    exact absurd (List.mem_singleton_self v) hvq
  · intro x n hr hcond
    exfalso
    rcases hcond with h | ⟨h2, hh2, hlt⟩
    · simp at h
    · simp at hlt
  · intro v hv
    have : v = s := by simpa using hv
    subst this
    exact hs
  · intro hc
    have : g = s := by simpa using hc
    exact hsg this.symm
  · intro v hv
    simp
  · have h1 : (adjVals adj).card ≤ (adj.map (fun e => e.2.length)).sum := by
      unfold adjVals
      calc ((adj.map (fun e => e.2)).flatten).toFinset.card
            ≤ ((adj.map (fun e => e.2)).flatten).length :=
              List.toFinset_card_le _
        _ = (adj.map (fun e => e.2.length)).sum := by
              rw [List.length_flatten, List.map_map]
              rfl
    have h2 : ((insert s (adjVals adj)) \ (List.map (fun e => e.1)
          [((s, none) : String × Option String)]).toFinset).card
          ≤ (adjVals adj).card := by
      refine Finset.card_le_card ?_
      intro x hx
      rw [Finset.mem_sdiff] at hx
      rcases Finset.mem_insert.1 hx.1 with rfl | hx2
      · exact absurd (by simp) hx.2
      · exact hx2
    unfold bfsFuel
    simp only [List.length_singleton]
    omega

theorem bfsPath_correct (adj : List (String × List String)) (s g : String)
    (hadj : ∀ k w, w ∈ cbpGet adj k → w ≠ "") (hs : s ≠ "") (hsg : s ≠ g)
    (hconn : ∃ n, ReachN (Edge adj) s g n) :
    ∃ p, bfsPath s g adj = some p ∧ p.head? = some s ∧
      p.getLast? = some g ∧ List.Chain' (Edge adj) p ∧
      ∀ n, ReachN (Edge adj) s g n → p.length ≤ n + 1 := by
  unfold bfsPath
  rw [if_neg hsg]
  exact bfsLoop_correct adj s g hadj (bfsFuel adj) [s] [(s, none)]
    (fun _ => 0) (bfsInv_init adj s g hs hsg) hconn

theorem reachN_of_chain (E : String → String → Prop) (s : String) :
    ∀ (p : List String) (a : String) (k : Nat), ReachN E s a k →
      p.head? = some a → List.Chain' E p → ∀ b, p.getLast? = some b →
      ReachN E s b (k + (p.length - 1)) := by
  intro p
  induction p with
  | nil =>
    intro a k _ hh
    simp at hh
  | cons x rest ih =>
    intro a k hra hh hc b hl
    have hxa : x = a := by simpa using hh
    subst hxa
    rcases rest with _ | ⟨y, t⟩
    · have hbx : x = b := by simpa using hl
      subst hbx
      simpa using hra
    · have hE := (List.chain'_cons.1 hc).1
      have hry : ReachN E s y (k + 1) := ReachN.succ hra hE
      have hrec := ih y (k + 1) hry rfl (List.chain'_cons.1 hc).2 b
        (by rw [← List.getLast?_cons_cons]; exact hl)
      have heq : k + 1 + ((y :: t).length - 1) =
          k + ((x :: y :: t).length - 1) := by
        simp only [List.length_cons]
        omega
      rw [← heq]
      exact hrec

/-- C5: for every pair of people connected in the undirected graph whose
edges are exactly every spouse pair plus each child with every one of its
declared parents, the compare search returns a path between them of
minimum length in that graph, starting at the first selection and ending
at the second. -/
theorem C5_bfs_shortest_path (rels : List Rel) (s g : String)
    (hconn : ∃ p0, specPath rels s g p0) :
    ∃ p, bfsPath s g (buildAdjacency rels) = some p ∧ specPath rels s g p ∧
      ∀ q, specPath rels s g q → p.length ≤ q.length := by
  by_cases hsg : s = g
  · subst hsg
    refine ⟨[s], ?_, ⟨rfl, rfl, List.chain'_singleton s⟩, ?_⟩
    · unfold bfsPath
      rw [if_pos rfl]
    · intro q hq
      rcases q with _ | ⟨x, t⟩
      · obtain ⟨h1, _, _⟩ := hq
        simp at h1
      · simp
  · obtain ⟨p0, hp0⟩ := hconn
    have hs : s ≠ "" := by
      obtain ⟨h1, h2, h3⟩ := hp0
      rcases p0 with _ | ⟨x, rest⟩
      · simp at h1
      · have hxs : x = s := by simpa using h1
        subst hxs
        rcases rest with _ | ⟨y, t⟩
        · have hxg : x = g := by simpa using h2
          exact absurd hxg hsg
        · exact ((List.chain'_cons.1 h3).1).1
    have hreach : ∃ n, ReachN (Edge (buildAdjacency rels)) s g n := by
      obtain ⟨h1, h2, h3⟩ := hp0
      rcases p0 with _ | ⟨x, rest⟩
      · simp at h1
      · have hxs : x = s := by simpa using h1
        subst hxs
        have hchainE : List.Chain' (Edge (buildAdjacency rels)) (x :: rest) :=
          List.Chain'.imp (fun a b h => (buildAdjacency_spec rels a b).2 h) h3
        exact ⟨0 + ((x :: rest).length - 1),
          reachN_of_chain _ x (x :: rest) x 0 ReachN.zero rfl hchainE g h2⟩
    have hadjne : ∀ k w, w ∈ cbpGet (buildAdjacency rels) k → w ≠ "" := by
      intro k w hw
      exact ((buildAdjacency_sound rels k w) hw).2.1
    obtain ⟨p, hrun, hhead, hlast, hchain, hmin⟩ :=
      bfsPath_correct (buildAdjacency rels) s g hadjne hs hsg hreach
    refine ⟨p, hrun, ⟨hhead, hlast, ?_⟩, ?_⟩
    · exact List.Chain'.imp
        (fun a b h => (buildAdjacency_spec rels a b).1 h) hchain
    · intro q hq
      obtain ⟨h1, h2, h3⟩ := hq
      rcases q with _ | ⟨x, rest⟩
      · simp at h1
      · have hxs : x = s := by simpa using h1
        subst hxs
        have hchainE : List.Chain' (Edge (buildAdjacency rels)) (x :: rest) :=
          List.Chain'.imp (fun a b h => (buildAdjacency_spec rels a b).2 h) h3
        have hr := reachN_of_chain _ x (x :: rest) x 0 ReachN.zero rfl
          hchainE g h2
        have hle := hmin _ hr
        simp only [List.length_cons] at hle ⊢
        omega

/-- A family where the second selection is reached through a spouse hop
and a declared-parent hop. -/
def c5Rels : List Rel :=
  [Rel.spouse "M" "A", Rel.parentChild "C" ["A", "B"] none]

theorem c5_path : specPath c5Rels "M" "C" ["M", "A", "C"] :=
  ⟨rfl, rfl, List.chain'_cons.2 ⟨by decide,
    List.chain'_cons.2 ⟨by decide, List.chain'_singleton "C"⟩⟩⟩

/-- C5, witnessed: M and C are connected (via M-A-C), so the search
returns a shortest path. -/
theorem C5_bfs_shortest_path_witness :
    specPath c5Rels "M" "C" ["M", "A", "C"] ∧
    (∃ p, bfsPath "M" "C" (buildAdjacency c5Rels) = some p ∧
      specPath c5Rels "M" "C" p ∧
      ∀ q, specPath c5Rels "M" "C" q → p.length ≤ q.length) :=
  ⟨c5_path, C5_bfs_shortest_path c5Rels "M" "C" ⟨["M", "A", "C"], c5_path⟩⟩

end FamilyTree
